import Mathlib

/-!
# AGON trained-schema variant: a shallow embedding of `src/agon/core.py`

This file embeds the trained-schema encoder/decoder of the AGON protocol
(class `AGON` in `src/agon/core.py`) in Lean and settles the frozen claims
about it.

Modelling conventions:

* JSON-compatible Python values are modelled by the inductive `JVal`
  (numbers as `Int`; the claims under verification involve no floats).
  Python `dict`s are association lists in insertion order; parsed JSON and
  Python dict literals never carry duplicate keys, which theorems track as
  a nodup side condition where it matters.
* `orjson.dumps` is modelled by `jsonDump`; `orjson.loads ∘ orjson.dumps`
  is the identity on JSON values, so the composition
  `decode(encode(...))` is modelled at the level of parsed values
  (`decode` below consumes the `JVal` that parsing the payload string
  would produce).
* The tokenizer (`tiktoken`, an external collaborator) is an arbitrary
  function `tk : String → Nat`; `_tk_val tk v = tk (jsonDump v)`.
* Machine-width arithmetic appears only inside SHA-256, modelled over
  `Nat` with explicit reduction modulo `2 ^ 32` (`w32`).
* Python `==` is order-insensitive on dicts; it is modelled by `pyEq`.
-/

set_option maxHeartbeats 1000000

/-- A parsed JSON value / Python object, as produced by `orjson.loads`. -/
inductive JVal where
  | null
  | bool (b : Bool)
  | num (n : Int)
  | str (s : String)
  | arr (elems : List JVal)
  | obj (members : List (String × JVal))
deriving Repr

/-- A Python dict with string keys, in insertion order. -/
abbrev JObj := List (String × JVal)

mutual

/-- Structural (order-sensitive) equality test on `JVal`. -/
def JVal.beq : JVal → JVal → Bool
  | .null, .null => true
  | .bool a, .bool b => a == b
  | .num a, .num b => a == b
  | .str a, .str b => a == b
  | .arr xs, .arr ys => JVal.beqList xs ys
  | .obj xs, .obj ys => JVal.beqObj xs ys
  | _, _ => false
termination_by v _ => sizeOf v

/-- Pointwise `JVal.beq` on lists. -/
def JVal.beqList : List JVal → List JVal → Bool
  | [], [] => true
  | x :: xs, y :: ys => JVal.beq x y && JVal.beqList xs ys
  | _, _ => false
termination_by v _ => sizeOf v

/-- Pointwise `JVal.beq` on members. -/
def JVal.beqObj : List (String × JVal) → List (String × JVal) → Bool
  | [], [] => true
  | (k1, v1) :: xs, (k2, v2) :: ys => k1 == k2 && JVal.beq v1 v2 && JVal.beqObj xs ys
  | _, _ => false
termination_by v _ => sizeOf v

end

mutual

theorem JVal.beq_iff : ∀ a b : JVal, JVal.beq a b = true ↔ a = b
  | .null, b => by cases b <;> simp [JVal.beq]
  | .bool a, b => by cases b <;> simp [JVal.beq]
  | .num a, b => by cases b <;> simp [JVal.beq]
  | .str a, b => by cases b <;> simp [JVal.beq]
  | .arr xs, b => by
    cases b <;> simp [JVal.beq]
    exact JVal.beqList_iff xs _
  | .obj xs, b => by
    cases b <;> simp [JVal.beq]
    exact JVal.beqObj_iff xs _
termination_by a _ => sizeOf a

theorem JVal.beqList_iff : ∀ xs ys : List JVal, JVal.beqList xs ys = true ↔ xs = ys
  | [], ys => by cases ys <;> simp [JVal.beqList]
  | x :: xs, [] => by simp [JVal.beqList]
  | x :: xs, y :: ys => by
    simp [JVal.beqList, JVal.beq_iff x y, JVal.beqList_iff xs ys]
termination_by xs _ => sizeOf xs

theorem JVal.beqObj_iff :
    ∀ xs ys : List (String × JVal), JVal.beqObj xs ys = true ↔ xs = ys
  | [], ys => by cases ys <;> simp [JVal.beqObj]
  | x :: xs, [] => by cases x; simp [JVal.beqObj]
  | (k1, v1) :: xs, (k2, v2) :: ys => by
    simp [JVal.beqObj, JVal.beq_iff v1 v2, JVal.beqObj_iff xs ys, and_assoc]
termination_by xs _ => sizeOf xs

end

instance : DecidableEq JVal := fun a b =>
  decidable_of_iff (JVal.beq a b = true) (JVal.beq_iff a b)

/-- The per-key type tags of a schema node (`t` values in `core.py`). -/
inductive TType where
  | scalar
  | str
  | dict
  | obj
  | list
deriving Repr, DecidableEq

/-- A schema node: `{"k": keys, "t": types, "d": dicts, "s": subs}`
(`SchemaNode` in `core.py`). The three maps are association lists. -/
inductive SchemaNode where
  | mk (k : List String) (t : List (String × TType))
       (d : List (String × List String)) (s : List (String × SchemaNode))

/-- Ordered keys of a schema node. -/
def SchemaNode.k : SchemaNode → List String
  | .mk k _ _ _ => k

/-- Per-key type tags of a schema node. -/
def SchemaNode.t : SchemaNode → List (String × TType)
  | .mk _ t _ _ => t

/-- Per-key dictionary entries of a schema node. -/
def SchemaNode.d : SchemaNode → List (String × List String)
  | .mk _ _ d _ => d

/-- Per-key sub-schemas of a schema node. -/
def SchemaNode.s : SchemaNode → List (String × SchemaNode)
  | .mk _ _ _ s => s

/-- An anchored config `{"cid": ..., "v": ..., "schema": ...}`. -/
structure Config where
  cid : String
  v : String
  schema : SchemaNode

/-- `types.get(k, "scalar")`: the type tag of key `k`, defaulting to scalar. -/
def lookupT (node : SchemaNode) (key : String) : TType :=
  (List.lookup key node.t).getD .scalar

/-- `subs[k]` (defined in trained schemas whenever the tag is obj/list;
the default value stands in for the places Python would raise `KeyError`,
which are unreachable for configs produced by `train`). -/
def lookupS (node : SchemaNode) (key : String) : SchemaNode :=
  (List.lookup key node.s).getD (.mk [] [] [] [])

/-- `node["d"].get(k)`, the dictionary entries for key `k` (empty when absent). -/
def lookupD (node : SchemaNode) (key : String) : List String :=
  (List.lookup key node.d).getD []

/-- The reserved missing-field sentinel `{"_m": 1}`. -/
def sentinelJ : JVal := .obj [("_m", .num 1)]

/-- The trailing-sentinel truncation of `_pack`
(`while row and isinstance(row[-1], dict) and row[-1] == missing_sentinel: row.pop()`). -/
def rstripSentinel (row : List JVal) : List JVal :=
  (row.reverse.dropWhile (fun v => v == sentinelJ)).reverse

/-- `val_maps[k][v]` of `_pack`: the pointer index assigned to string `s` by the
dict comprehension building `{s: -(i+1) for i, s in enumerate(lst)}` (the last
occurrence wins, as in Python). Returns the index `i`; the pointer is `-(i+1)`. -/
def valMapFind (entries : List String) (s : String) : Option Nat :=
  match entries with
  | [] => none
  | e :: rest =>
    match valMapFind rest s with
    | some j => some (j + 1)
    | none => if e = s then some 0 else none

/-- `inv_maps[k].get(v)` of `_unpack`: the entry at pointer `-(i+1)`. -/
def invMapFind (entries : List String) (n : Int) : Option String :=
  if n < 0 then entries.get? ((-n).toNat - 1) else none

/-- Whether a value is a JSON array (`isinstance(x, list)`). -/
def JVal.isArr : JVal → Bool
  | .arr _ => true
  | _ => false

/-- Whether a value is a JSON object (`isinstance(x, dict)`). -/
def JVal.isObj : JVal → Bool
  | .obj _ => true
  | _ => false

theorem sizeOf_lookup {r : JObj} {key : String} {v : JVal}
    (h : List.lookup key r = some v) : sizeOf v < sizeOf r := by
  induction r with
  | nil => simp [List.lookup] at h
  | cons p rest ih =>
    obtain ⟨a, b⟩ := p
    rw [List.lookup] at h
    by_cases hk : key == a
    · simp [hk] at h
      subst h
      simp
      omega
    · simp [hk] at h
      have := ih h
      simp
      omega

mutual

/-- One iteration of the key loop of `AGON._pack` for a present, non-null value
`v` at key `k` (step `3.` in the source: type dispatch and drift handling). -/
def packVal (node : SchemaNode) (key : String) (v : JVal) : JVal :=
  match lookupT node key with
  | .obj =>
    -- `if isinstance(v, dict): row.append(AGON._pack([v], subs[k])[0]) else v`
    match v with
    | .obj o => .arr (rstripSentinel (packRowCore (lookupS node key) o))
    | _ => v
  | .list =>
    -- `if isinstance(v, list) and all(isinstance(x, dict) for x in v)`
    match v with
    | .arr xs => if xs.all JVal.isObj then .arr (packElems (lookupS node key) xs) else .arr xs
    | _ => v
  | .dict =>
    -- `elif t == "dict" and v in val_maps.get(k, {}): row.append(val_maps[k][v])`
    -- (membership in the string-keyed map can only hold for strings; unhashable
    -- values, on which Python would raise TypeError, fall through here)
    match v with
    | .str s =>
      match valMapFind (lookupD node key) s with
      | some i => .num (-(i + 1 : Int))
      | none => .str s
    | _ => v
  | _ => v
termination_by (sizeOf v, 2)
decreasing_by
  all_goals apply Prod.Lex.left
  all_goals simp

/-- One cell of a packed row: the missing sentinel when the key is absent,
`null` for an explicit null, else `packVal` (steps `1.`, `2.`, `3.` of the
key loop of `AGON._pack`). -/
def packCell (node : SchemaNode) (r : JObj) (key : String) : JVal :=
  match h : List.lookup key r with
  | none => sentinelJ
  | some v => if v = .null then .null else packVal node key v
termination_by (sizeOf r, 0)
decreasing_by
  exact Prod.Lex.left _ _ (sizeOf_lookup h)

/-- The row built by the key loop of `AGON._pack` before trailing truncation. -/
def packRowCore (node : SchemaNode) (r : JObj) : List JVal :=
  node.k.map fun key => packCell node r key
termination_by (sizeOf r, 1)
decreasing_by
  apply Prod.Lex.right
  omega

/-- `AGON._pack(v, subs[k])` on the elements of a list-typed value, embedded as
JSON values (all elements are dicts when this is reached). -/
def packElems (node : SchemaNode) : List JVal → List JVal
  | [] => []
  | .obj o :: xs => .arr (rstripSentinel (packRowCore node o)) :: packElems node xs
  | x :: xs => x :: packElems node xs
termination_by xs => (sizeOf xs, 2)
decreasing_by
  all_goals first
    | (apply Prod.Lex.right; omega)
    | (apply Prod.Lex.right; simp <;> omega)
    | (apply Prod.Lex.left; omega)
    | (apply Prod.Lex.left; simp <;> omega)

end

/-- `AGON._pack`: pack objects into positional rows, truncating trailing
missing sentinels of each row. -/
def _pack (rows : List JObj) (node : SchemaNode) : List (List JVal) :=
  rows.map fun r => rstripSentinel (packRowCore node r)

/-- The body of the cell loop of `AGON._validate_packed_row_structure`. -/
def cellOK (node : SchemaNode) (key : String) (val : JVal) : Bool :=
  if val = .null then true
  else if val = sentinelJ then true
  else match val with
  | .obj _ => false  -- packed rows never contain raw dicts
  | _ =>
    match lookupT node key with
    | .obj => val.isArr  -- nested object: must be a list (packed row)
    | .list =>
      match val with
      | .arr xs => xs.all JVal.isArr  -- must be a list of lists
      | _ => false
    | _ => true

/-- The cell loop of `AGON._validate_packed_row_structure`: pairs
`(keys[i], row[i])` for `i < len(row)` (well defined since the row is at
most as long as the key list when this is reached). -/
def validCells (node : SchemaNode) : List (String × JVal) → Bool
  | [] => true
  | (key, val) :: rest => cellOK node key val && validCells node rest

/-- `AGON._validate_packed_row_structure`: drift guard for a packed sub-row. -/
def _validate_packed_row_structure (row : JVal) (sub_node : SchemaNode) : Bool :=
  match row with
  | .arr cells =>
    decide (cells.length ≤ sub_node.k.length) && validCells sub_node (sub_node.k.zip cells)
  | _ => false

/-- Python dict assignment `obj[k] = v` on an insertion-ordered dict:
an existing key keeps its position, a new key is appended. -/
def dictInsert (o : JObj) (key : String) (v : JVal) : JObj :=
  match o with
  | [] => [(key, v)]
  | (a, b) :: rest => if a = key then (a, v) :: rest else (a, b) :: dictInsert rest key v

mutual

/-- `AGON._unpack`: unpack positional rows back into dictionaries.
Errors model `raise AGONError(...)` in strict mode. -/
def unpackRows (rows : List JVal) (node : SchemaNode) (strict : Bool) :
    Except String (List JObj) :=
  match rows with
  | [] => .ok []
  | r :: rest =>
    match r with
    | .arr cells => do
      let o ← unpackCells node node.k cells strict []
      let os ← unpackRows rest node strict
      .ok (o :: os)
    | _ =>
      -- `if not isinstance(r, list): raise ... / continue`
      if strict then .error "Row must be a list" else unpackRows rest node strict
termination_by sizeOf rows
decreasing_by
  all_goals simp
  all_goals omega

/-- The index loop of `AGON._unpack` over `range(min(len(r), len(keys)))`,
building the output dict `obj` (the accumulator `acc`). -/
def unpackCells (node : SchemaNode) (keys : List String) (cells : List JVal)
    (strict : Bool) (acc : JObj) : Except String JObj :=
  match keys, cells with
  | [], _ => .ok acc
  | _ :: _, [] => .ok acc
  | key :: ks, v :: vs =>
    -- `if isinstance(v, dict) and v == {"_m": 1}: continue`
    if v = sentinelJ then unpackCells node ks vs strict acc
    -- `if v is None: obj[k] = None; continue`
    else if v = .null then unpackCells node ks vs strict (dictInsert acc key .null)
    else match lookupT node key with
    | .obj =>
      -- drift guard, then `obj[k] = AGON._unpack([v], subs[k], strict)[0]`
      if _validate_packed_row_structure v (lookupS node key) then
        match v with
        | .arr cells2 => do
          let o ← unpackCells (lookupS node key) (lookupS node key).k cells2 strict []
          unpackCells node ks vs strict (dictInsert acc key (.obj o))
        | _ =>
          -- unreachable: the guard only accepts lists
          unpackCells node ks vs strict (dictInsert acc key v)
      else unpackCells node ks vs strict (dictInsert acc key v)
    | .list =>
      -- `if isinstance(v, list) and (not v or all(isinstance(x, list) for x in v))`
      match v with
      | .arr xs =>
        if xs.all JVal.isArr then do
          let os ← unpackRows xs (lookupS node key) strict
          unpackCells node ks vs strict (dictInsert acc key (.arr (os.map JVal.obj)))
        else unpackCells node ks vs strict (dictInsert acc key (.arr xs))
      | _ => unpackCells node ks vs strict (dictInsert acc key v)
    | .dict =>
      -- `elif t == "dict" and isinstance(v, int) and v < 0`
      match v with
      | .num n =>
        if n < 0 then
          match invMapFind (lookupD node key) n with
          | some s => unpackCells node ks vs strict (dictInsert acc key (.str s))
          | none =>
            if strict then .error (s!"Invalid dict ref {n} for {key}")
            else unpackCells node ks vs strict (dictInsert acc key (.num n))
        else unpackCells node ks vs strict (dictInsert acc key (.num n))
      | _ => unpackCells node ks vs strict (dictInsert acc key v)
    | _ => unpackCells node ks vs strict (dictInsert acc key v)
termination_by sizeOf cells
decreasing_by
  all_goals simp
  all_goals omega

end

mutual

/-- The per-row body of `AGON._check_coverage`: the key test
`any(k not in allowed for k in r)` plus the per-value recursion. -/
def coverRow (node : SchemaNode) (r : JObj) : Bool :=
  r.all (fun kv => node.k.contains kv.1) && coverVals node r
termination_by (sizeOf r, 1)

/-- The `for k, v in r.items()` loop of `AGON._check_coverage`. -/
def coverVals (node : SchemaNode) : JObj → Bool
  | [] => true
  | (key, v) :: rest => coverVal node key v && coverVals node rest
termination_by r => (sizeOf r, 0)

/-- One iteration of the value loop of `AGON._check_coverage`. -/
def coverVal (node : SchemaNode) (key : String) (v : JVal) : Bool :=
  if v = .null then true
  else match lookupT node key with
  | .obj =>
    -- `if t == "obj" and isinstance(v, dict) and not check([v], subs[k])`
    match v with
    | .obj o => coverRow (lookupS node key) o
    | _ => true
  | .list =>
    -- `t == "list" and isinstance(v, list) and v and all(dicts) and not check(v, subs[k])`
    match v with
    | .arr xs =>
      if xs.isEmpty then true
      else if xs.all JVal.isObj then coverElems (lookupS node key) xs else true
    | _ => true
  | _ => true
termination_by (sizeOf v, 2)

/-- `AGON._check_coverage(v, subs[k])` over the elements of a list value. -/
def coverElems (node : SchemaNode) (xs : List JVal) : Bool :=
  xs.attach.all fun ⟨x, _⟩ =>
    match x with
    | .obj o => coverRow node o
    | _ => true
termination_by (sizeOf xs, 0)
decreasing_by
  have h1 : sizeOf (JVal.obj o) < sizeOf xs := List.sizeOf_lt_of_mem (by assumption)
  simp at h1
  omega

end

/-- `AGON._check_coverage`: `False` if the data contains keys not in the
schema, recursively. -/
def _check_coverage (data : List JObj) (node : SchemaNode) : Bool :=
  data.all fun r => coverRow node r

mutual

/-- Python `==` on JSON values: numbers, booleans and strings compare by
value, lists pointwise, dicts by key set and per-key values (insertion
order is irrelevant). The Python cross-type numeric quirks
(`True == 1`, `1 == 1.0`) do not arise in the claims settled here. -/
def pyEq : JVal → JVal → Bool
  | .null, .null => true
  | .bool a, .bool b => a == b
  | .num a, .num b => a == b
  | .str a, .str b => a == b
  | .arr xs, .arr ys => pyEqList xs ys
  | .obj xs, .obj ys => xs.length == ys.length && pyEqMembers xs ys
  | _, _ => false
termination_by a _ => sizeOf a

/-- Python `==` on lists: same length, pointwise equal. -/
def pyEqList : List JVal → List JVal → Bool
  | [], [] => true
  | x :: xs, y :: ys => pyEq x y && pyEqList xs ys
  | _, _ => false
termination_by xs _ => sizeOf xs

/-- Each member of the first dict is present in the second with a
`pyEq`-equal value. -/
def pyEqMembers : List (String × JVal) → List (String × JVal) → Bool
  | [], _ => true
  | (key, v) :: rest, ys =>
    (match List.lookup key ys with
     | some w => pyEq v w
     | none => false) && pyEqMembers rest ys
termination_by xs _ => sizeOf xs

end

/-- Python `==` on lists of dicts (the result type of encode/decode). -/
def pyEqObjList (xs ys : List JObj) : Bool :=
  pyEqList (xs.map JVal.obj) (ys.map JVal.obj)

/-- A stable insertion into a list sorted by the strict precedence `lt`:
`x` goes before the first element that does not strictly precede it. -/
def sInsert (lt : α → α → Bool) (x : α) : List α → List α
  | [] => [x]
  | y :: ys => if lt y x then y :: sInsert lt x ys else x :: y :: ys

/-- Stable insertion sort by the strict precedence `lt` (equal elements keep
their relative order, like Python `list.sort`). -/
def sSort (lt : α → α → Bool) : List α → List α
  | [] => []
  | x :: xs => sInsert lt x (sSort lt xs)

/-- First-occurrence deduplication (Python set construction order does not
matter here because the result is sorted before use). -/
def dedupFirst [BEq α] : List α → List α
  | [] => []
  | x :: xs => if xs.contains x then dedupFirst xs else x :: dedupFirst xs


/-- JSON string escaping as performed by `orjson.dumps` (standard JSON
escapes; non-ASCII characters are emitted verbatim in UTF-8). -/
def escapeChar (c : Char) : String :=
  if c = '"' then "\\\""
  else if c = '\\' then "\\\\"
  else if c = '\n' then "\\n"
  else if c = '\r' then "\\r"
  else if c = '\t' then "\\t"
  else if c.toNat = 8 then "\\b"
  else if c.toNat = 12 then "\\f"
  else if c.toNat < 32 then
    let hexDigit := fun (n : Nat) =>
      if n < 10 then Char.ofNat (48 + n) else Char.ofNat (87 + n)
    String.mk ['\\', 'u', '0', '0', hexDigit (c.toNat / 16), hexDigit (c.toNat % 16)]
  else String.mk [c]

/-- A JSON string literal for `s`. -/
def dumpStr (s : String) : String :=
  "\"" ++ String.join (s.data.map escapeChar) ++ "\""

mutual

/-- `orjson.dumps` (without `OPT_SORT_KEYS`): compact JSON serialization,
members in insertion order. -/
def jsonDump : JVal → String
  | .null => "null"
  | .bool b => if b then "true" else "false"
  | .num n => toString n
  | .str s => dumpStr s
  | .arr xs => "[" ++ jsonDumpList xs ++ "]"
  | .obj ms => "\x7b" ++ jsonDumpMembers ms ++ "\x7d"
termination_by v => sizeOf v

/-- Comma-separated serialization of array elements. -/
def jsonDumpList : List JVal → String
  | [] => ""
  | [x] => jsonDump x
  | x :: y :: rest => jsonDump x ++ "," ++ jsonDumpList (y :: rest)
termination_by xs => sizeOf xs

/-- Comma-separated serialization of object members. -/
def jsonDumpMembers : List (String × JVal) → String
  | [] => ""
  | [(key, v)] => dumpStr key ++ ":" ++ jsonDump v
  | (key, v) :: m :: rest =>
    dumpStr key ++ ":" ++ jsonDump v ++ "," ++ jsonDumpMembers (m :: rest)
termination_by ms => sizeOf ms

end

mutual

/-- The recursive key sort applied by `orjson.OPT_SORT_KEYS` (string
comparison is by Unicode scalar value, which agrees with UTF-8 byte
order). -/
def sortKeysRec : JVal → JVal
  | .arr xs => .arr (sortKeysList xs)
  | .obj ms => .obj (sSort (fun a b => a.1 < b.1) (sortKeysMembers ms))
  | v => v
termination_by v => sizeOf v

/-- `sortKeysRec` on array elements. -/
def sortKeysList : List JVal → List JVal
  | [] => []
  | x :: xs => sortKeysRec x :: sortKeysList xs
termination_by xs => sizeOf xs

/-- `sortKeysRec` on member values. -/
def sortKeysMembers : List (String × JVal) → List (String × JVal)
  | [] => []
  | (key, v) :: ms => (key, sortKeysRec v) :: sortKeysMembers ms
termination_by ms => sizeOf ms

end

/-- `orjson.dumps(v, option=orjson.OPT_SORT_KEYS)`: canonical JSON with
recursively sorted keys. -/
def canonicalDump (v : JVal) : String :=
  jsonDump (sortKeysRec v)

/-- UTF-8 encoding of one Unicode scalar value, as a list of byte values. -/
def utf8Char (n : Nat) : List Nat :=
  if n < 128 then [n]
  else if n < 2048 then [192 + n / 64, 128 + n % 64]
  else if n < 65536 then [224 + n / 4096, 128 + n / 64 % 64, 128 + n % 64]
  else [240 + n / 262144, 128 + n / 4096 % 64, 128 + n / 64 % 64, 128 + n % 64]

/-- UTF-8 encoding of a string (`str.encode` in Python). -/
def utf8Bytes (s : String) : List Nat :=
  s.data.flatMap fun c => utf8Char c.toNat


/-- Reduction modulo the 32-bit word size. -/
def w32 (n : Nat) : Nat := n % 4294967296

/-- 32-bit right rotation. -/
def rotr (x n : Nat) : Nat := w32 (x / 2 ^ n + x * 2 ^ (32 - n))

/-- 32-bit bitwise complement. -/
def notw (x : Nat) : Nat := 4294967295 - x

/-- SHA-256 big sigma 0. -/
def bsig0 (x : Nat) : Nat := (rotr x 2).xor ((rotr x 13).xor (rotr x 22))

/-- SHA-256 big sigma 1. -/
def bsig1 (x : Nat) : Nat := (rotr x 6).xor ((rotr x 11).xor (rotr x 25))

/-- SHA-256 small sigma 0. -/
def ssig0 (x : Nat) : Nat := (rotr x 7).xor ((rotr x 18).xor (x / 2 ^ 3))

/-- SHA-256 small sigma 1. -/
def ssig1 (x : Nat) : Nat := (rotr x 17).xor ((rotr x 19).xor (x / 2 ^ 10))

/-- SHA-256 choice function. -/
def chf (x y z : Nat) : Nat := (x.land y).xor ((notw x).land z)

/-- SHA-256 majority function. -/
def majf (x y z : Nat) : Nat := (x.land y).xor ((x.land z).xor (y.land z))

/-- SHA-256 round constants (fractional parts of cube roots of the first 64
primes). -/
def shaK : List Nat :=
  [1116352408, 1899447441, 3049323471, 3921009573, 961987163, 1508970993,
   2453635748, 2870763221, 3624381080, 310598401, 607225278, 1426881987,
   1925078388, 2162078206, 2614888103, 3248222580, 3835390401, 4022224774,
   264347078, 604807628, 770255983, 1249150122, 1555081692, 1996064986,
   2554220882, 2821834349, 2952996808, 3210313671, 3336571891, 3584528711,
   113926993, 338241895, 666307205, 773529912, 1294757372, 1396182291,
   1695183700, 1986661051, 2177026350, 2456956037, 2730485921, 2820302411,
   3259730800, 3345764771, 3516065817, 3600352804, 4094571909, 275423344,
   430227734, 506948616, 659060556, 883997877, 958139571, 1322822218,
   1537002063, 1747873779, 1955562222, 2024104815, 2227730452, 2361852424,
   2428436474, 2756734187, 3204031479, 3329325298]

/-- SHA-256 initial hash state (fractional parts of square roots of the
first 8 primes). -/
def shaH0 : List Nat :=
  [1779033703, 3144134277, 1013904242, 2773480762, 1359893119, 2600822924,
   528734635, 1541459225]

/-- Big-endian bytes of `n`, `len` bytes wide. -/
def beBytes (len n : Nat) : List Nat :=
  match len with
  | 0 => []
  | m + 1 => beBytes m (n / 256) ++ [n % 256]

/-- SHA-256 message padding: append `0x80`, zeros, and the 64-bit
big-endian bit length, reaching a multiple of 64 bytes. -/
def shaPad (msg : List Nat) : List Nat :=
  msg ++ [128] ++ List.replicate ((119 - msg.length % 64) % 64) 0
      ++ beBytes 8 (msg.length * 8)

/-- Combine bytes into big-endian 32-bit words. -/
def toWords : List Nat → List Nat
  | a :: b :: c :: d :: rest => (((a * 256 + b) * 256 + c) * 256 + d) :: toWords rest
  | _ => []

/-- Split words into 16-word blocks. -/
def toBlocks (ws : List Nat) : List (List Nat) :=
  match ws with
  | [] => []
  | w :: rest => (w :: rest).take 16 :: toBlocks (rest.drop 15)
termination_by ws.length
decreasing_by
  simp [List.length_drop]
  omega

/-- Extend the 16-word message schedule by `n` more words (the accumulator
holds the schedule so far, most recent first). -/
def extendW (n : Nat) (acc : List Nat) : List Nat :=
  match n with
  | 0 => acc
  | m + 1 =>
    let w := w32 (ssig1 (acc.getD 1 0) + acc.getD 6 0 + ssig0 (acc.getD 14 0) + acc.getD 15 0)
    extendW m (w :: acc)

/-- One SHA-256 compression round. -/
def shaRound (st : List Nat) (kw : Nat × Nat) : List Nat :=
  match st with
  | [a, b, c, d, e, f, g, h] =>
    let t1 := w32 (h + bsig1 e + chf e f g + kw.1 + kw.2)
    let t2 := w32 (bsig0 a + majf a b c)
    [w32 (t1 + t2), a, b, c, w32 (d + t1), e, f, g]
  | st => st

/-- Compress one 16-word block into the hash state. -/
def shaCompress (st : List Nat) (block : List Nat) : List Nat :=
  let ws := (extendW 48 block.reverse).reverse
  let out := (shaK.zip ws).foldl shaRound st
  (st.zip out).map fun p => w32 (p.1 + p.2)

/-- Lowercase hexadecimal digits of `n`, `len` digits wide. -/
def hexN (len n : Nat) : List Char :=
  match len with
  | 0 => []
  | m + 1 =>
    hexN m (n / 16) ++
      [if n % 16 < 10 then Char.ofNat (48 + n % 16) else Char.ofNat (87 + n % 16)]

/-- `hashlib.sha256(msg).hexdigest()`: the 64-character lowercase
hexadecimal SHA-256 digest of a byte string. -/
def sha256hex (msg : List Nat) : String :=
  let blocks := toBlocks (toWords (shaPad msg))
  let final := blocks.foldl shaCompress shaH0
  String.mk (final.flatMap fun wrd => hexN 8 wrd)


/-- The string name of a type tag, as stored in the schema JSON. -/
def TType.pyName : TType → String
  | .scalar => "scalar"
  | .str => "str"
  | .dict => "dict"
  | .obj => "obj"
  | .list => "list"

mutual

/-- The schema node as the JSON value that `orjson.dumps` serializes in
`AGON._anchor` (Python dict insertion order `k`, `t`, `d`, `s`). -/
def schemaToJVal : SchemaNode → JVal
  | .mk k t d s =>
    .obj [("k", .arr (k.map JVal.str)),
          ("t", .obj (t.map fun p => (p.1, .str p.2.pyName))),
          ("d", .obj (d.map fun p => (p.1, .arr (p.2.map JVal.str)))),
          ("s", .obj (subsToJVal s))]
termination_by node => sizeOf node

/-- `schemaToJVal` on the sub-schema map. -/
def subsToJVal : List (String × SchemaNode) → List (String × JVal)
  | [] => []
  | (key, sub) :: rest => (key, schemaToJVal sub) :: subsToJVal rest
termination_by s => sizeOf s

end

/-- `AGON._anchor`: lock the schema with a SHA-256 hash of its canonical
JSON (`orjson.dumps(root, option=orjson.OPT_SORT_KEYS)`). -/
def _anchor (context_id : String) (root : SchemaNode) : Config :=
  { cid := context_id,
    v := (sha256hex (utf8Bytes (canonicalDump (schemaToJVal root)))).take 16,
    schema := root }

/-- `k in r` on a Python dict. -/
def hasKey (r : JObj) (key : String) : Bool :=
  (List.lookup key r).isSome

/-- `presence[k]`: the number of sample rows containing key `k`. -/
def presenceOf (rows : List JObj) (key : String) : Nat :=
  rows.countP fun r => hasKey r key

/-- The dict values collected into `objs[k]` by `_build_node`, in row order. -/
def objsFor (key : String) : List JObj → List JObj
  | [] => []
  | r :: rest =>
    match List.lookup key r with
    | some (.obj o) => o :: objsFor key rest
    | _ => objsFor key rest

/-- The dicts among a list of values (all of them, when this is reached). -/
def extractObjs : List JVal → List JObj
  | [] => []
  | .obj o :: xs => o :: extractObjs xs
  | _ :: xs => extractObjs xs

/-- The dict elements extended into `lists[k]` by `_build_node`:
concatenation over rows of nonempty all-dict list values. -/
def listsFor (key : String) : List JObj → List JObj
  | [] => []
  | r :: rest =>
    (match List.lookup key r with
     | some (.arr xs) => if xs.isEmpty || !(xs.all JVal.isObj) then [] else extractObjs xs
     | _ => []) ++ listsFor key rest

/-- The string values collected into `strings[k]`, in row order. -/
def stringsFor (key : String) : List JObj → List String
  | [] => []
  | r :: rest =>
    match List.lookup key r with
    | some (.str s) => s :: stringsFor key rest
    | _ => stringsFor key rest

/-- `k in objs`: some row has a dict value at `k`. -/
def hasObjAt (rows : List JObj) (key : String) : Bool :=
  rows.any fun r =>
    match List.lookup key r with
    | some (.obj _) => true
    | _ => false

/-- `k in list_has_dicts`: some row has a nonempty all-dict list value at `k`. -/
def listHasDictsAt (rows : List JObj) (key : String) : Bool :=
  rows.any fun r =>
    match List.lookup key r with
    | some (.arr xs) => !xs.isEmpty && xs.all JVal.isObj
    | _ => false

/-- `k in strings`: some row has a string value at `k`. -/
def hasStringAt (rows : List JObj) (key : String) : Bool :=
  rows.any fun r =>
    match List.lookup key r with
    | some (.str _) => true
    | _ => false

/-- `k in is_mixed`: some row has a numeric or boolean value at `k`, or a
nonempty list value with a non-dict element. -/
def isMixedAt (rows : List JObj) (key : String) : Bool :=
  rows.any fun r =>
    match List.lookup key r with
    | some (.num _) => true
    | some (.bool _) => true
    | some (.arr xs) => !xs.isEmpty && !(xs.all JVal.isObj)
    | _ => false

/-- First-occurrence distinct elements (insertion order of a Python
`Counter` or `dict`). -/
def firstOccs [BEq α] (seen : List α) : List α → List α
  | [] => []
  | x :: xs => if seen.contains x then firstOccs seen xs else x :: firstOccs (x :: seen) xs

/-- The training knobs of `AGON.train` (floats modelled exactly as
rationals; the gate comparison is insensitive to this for the claims
settled here). -/
structure TrainingConfig where
  min_gain : ℚ
  amortize : Int
  max_dict : Int
  enum_only : Bool
  max_len : Int

/-- `AGON._tk_val`: token count of the JSON representation of a value. -/
def _tk_val (tk : String → Nat) (v : JVal) : Nat :=
  tk (jsonDump v)

/-- The `is_safe` predicate of `AGON._optimize_string`. -/
def isSafe (cfg : TrainingConfig) (s : String) : Bool :=
  if !cfg.enum_only then true
  else if (s.length : Int) > cfg.max_len then false
  else !(s.data.any fun c => c = '\n' || c = '\r' || c = '\t')

/-- `Counter(values).most_common()`: distinct values with multiplicities,
sorted by count descending, ties in first-occurrence order. -/
def mostCommon (values : List String) : List (String × Nat) :=
  sSort (fun a b => a.2 > b.2) ((firstOccs [] values).map fun s => (s, values.count s))

/-- The entry-selection loop of `AGON._optimize_string`: returns the
admitted entries and the accumulated `total_savings`. -/
def selectEntries (tk : String → Nat) (cfg : TrainingConfig) :
    List (String × Nat) → List String → Int → List String × Int
  | [], entries, savings => (entries, savings)
  | (s, freq) :: rest, entries, savings =>
    if freq < 2 then (entries, savings)
    else if (entries.length : Int) ≥ cfg.max_dict then (entries, savings)
    else if !isSafe cfg s then selectEntries tk cfg rest entries savings
    else
      selectEntries tk cfg rest (entries ++ [s])
        (savings +
          ((_tk_val tk (.str s) : Int) - (_tk_val tk (.num (-((entries.length : Int) + 1))) : Int))
            * (freq : Int))

/-- `AGON._optimize_string`: the dictionary entries for a string field if
dictionary encoding is net-beneficial, else `none`. -/
def _optimize_string (tk : String → Nat) (cfg : TrainingConfig) (key : String)
    (values : List String) : Option (List String) :=
  let res := selectEntries tk cfg (mostCommon values) [] 0
  if res.1.isEmpty then none
  else
    let prompt_cost : Int :=
      (_tk_val tk (.str key) : Int) + (res.1.map fun s => (_tk_val tk (.str s) : Int)).sum
        + res.1.length + 4
    if ((res.2 : ℚ) - (prompt_cost : ℚ) / (cfg.amortize : ℚ)) ≥ cfg.min_gain then some res.1
    else none


theorem sizeOf_append (a b : List JObj) : sizeOf (a ++ b) + 1 = sizeOf a + sizeOf b := by
  induction a with
  | nil => simp only [List.nil_append]; simp; omega
  | cons x rest ih => simp only [List.cons_append]; simp at ih ⊢; omega

theorem sizeOf_objsFor_le (key : String) :
    ∀ rows : List JObj, sizeOf (objsFor key rows) ≤ sizeOf rows := by
  intro rows
  induction rows with
  | nil => simp [objsFor]
  | cons r rest ih =>
    rw [objsFor]
    cases h : List.lookup key r with
    | none => simp; omega
    | some v =>
      have hv := sizeOf_lookup h
      cases v with
      | obj o => simp at hv; simp; omega
      | null => simp; omega
      | bool b => simp; omega
      | num n => simp; omega
      | str s => simp; omega
      | arr xs => simp; omega

theorem sizeOf_objsFor (key : String) (r : JObj) (rest : List JObj) :
    sizeOf (objsFor key (r :: rest)) < sizeOf (r :: rest) := by
  rw [objsFor]
  have hrest := sizeOf_objsFor_le key rest
  cases h : List.lookup key r with
  | none => simp; omega
  | some v =>
    have hv := sizeOf_lookup h
    cases v with
    | obj o => simp at hv; simp; omega
    | null => simp; omega
    | bool b => simp; omega
    | num n => simp; omega
    | str s => simp; omega
    | arr xs => simp; omega

theorem sizeOf_extractObjs : ∀ xs : List JVal, sizeOf (extractObjs xs) ≤ sizeOf xs := by
  intro xs
  induction xs with
  | nil => simp [extractObjs]
  | cons x rest ih =>
    cases x <;> simp [extractObjs] <;> omega

theorem sizeOf_listsFor_le (key : String) :
    ∀ rows : List JObj, sizeOf (listsFor key rows) ≤ sizeOf rows := by
  intro rows
  induction rows with
  | nil => simp [listsFor]
  | cons r rest ih =>
    rw [listsFor]
    have happ := sizeOf_append
      (match List.lookup key r with
       | some (.arr xs) => if xs.isEmpty || !(xs.all JVal.isObj) then [] else extractObjs xs
       | _ => []) (listsFor key rest)
    cases h : List.lookup key r with
    | none => simp at happ ⊢; omega
    | some v =>
      have hv := sizeOf_lookup h
      cases v with
      | arr xs =>
        
        rw [h] at happ
        have hx := sizeOf_extractObjs xs
        simp at hv
        by_cases hc : xs.isEmpty || !(xs.all JVal.isObj)
        · simp [hc] at happ ⊢; omega
        · simp [hc] at happ ⊢; omega
      | null => simp at happ ⊢; omega
      | bool b => simp at happ ⊢; omega
      | num n => simp at happ ⊢; omega
      | str s => simp at happ ⊢; omega
      | obj o => simp at happ ⊢; omega

theorem sizeOf_listsFor (key : String) (r : JObj) (rest : List JObj) :
    sizeOf (listsFor key (r :: rest)) < sizeOf (r :: rest) := by
  rw [listsFor]
  have hrest := sizeOf_listsFor_le key rest
  have happ := sizeOf_append
    (match List.lookup key r with
     | some (.arr xs) => if xs.isEmpty || !(xs.all JVal.isObj) then [] else extractObjs xs
     | _ => []) (listsFor key rest)
  cases h : List.lookup key r with
  | none => simp at happ ⊢; omega
  | some v =>
    have hv := sizeOf_lookup h
    cases v with
    | arr xs =>
      
      rw [h] at happ
      have hx := sizeOf_extractObjs xs
      simp at hv
      by_cases hc : xs.isEmpty || !(xs.all JVal.isObj)
      · simp [hc] at happ ⊢; omega
      · simp [hc] at happ ⊢; omega
    | null => simp at happ ⊢; omega
    | bool b => simp at happ ⊢; omega
    | num n => simp at happ ⊢; omega
    | str s => simp at happ ⊢; omega
    | obj o => simp at happ ⊢; omega

mutual

/-- `AGON._build_node`: build a schema node from sample rows. The guard
`not rows or not isinstance(rows[0], dict)` reduces to the emptiness test
here because every call site passes lists of dicts. Keys are first
collected sorted (Python `sorted(set)`), classified in that order, and
finally stable-sorted by presence density descending; comparing the float
keys `-(presence[k] / total)` with a fixed positive `total` is comparing
the presence counts. -/
def _build_node (tk : String → Nat) (cfg : TrainingConfig) (rows : List JObj) : SchemaNode :=
  match rows with
  | [] => .mk [] [] [] []
  | r0 :: rest =>
    let rows := r0 :: rest
    let keys0 := sSort (fun a b => a < b) (firstOccs [] (rows.flatMap fun r => r.map Prod.fst))
    let tds := buildEntries tk cfg r0 rest keys0
    let keys := sSort (fun a b => presenceOf rows a > presenceOf rows b) keys0
    .mk keys tds.1 tds.2.1 tds.2.2
termination_by (sizeOf rows, 1, 0)

/-- The classification loop `for k in keys:` of `AGON._build_node`,
returning the `types`, `dicts` and `subs` maps (entries in loop order).
The sample list is passed as head and tail so that its nonemptiness is
visible to the termination argument. -/
def buildEntries (tk : String → Nat) (cfg : TrainingConfig) (r0 : JObj) (rest : List JObj) :
    List String →
      List (String × TType) × List (String × List String) × List (String × SchemaNode)
  | [] => ([], [], [])
  | key :: ks =>
    let rows := r0 :: rest
    let tds := buildEntries tk cfg r0 rest ks
    if isMixedAt rows key then ((key, .scalar) :: tds.1, tds.2.1, tds.2.2)
    else if hasObjAt rows key && !listHasDictsAt rows key && !hasStringAt rows key then
      ((key, .obj) :: tds.1, tds.2.1,
        (key, _build_node tk cfg (objsFor key rows)) :: tds.2.2)
    else if listHasDictsAt rows key && !hasObjAt rows key && !hasStringAt rows key then
      ((key, .list) :: tds.1, tds.2.1,
        (key, _build_node tk cfg (listsFor key rows)) :: tds.2.2)
    else if hasStringAt rows key && !hasObjAt rows key && !listHasDictsAt rows key then
      match _optimize_string tk cfg key (stringsFor key rows) with
      | some entries => ((key, .dict) :: tds.1, (key, entries) :: tds.2.1, tds.2.2)
      | none => ((key, .str) :: tds.1, tds.2.1, tds.2.2)
    else ((key, .scalar) :: tds.1, tds.2.1, tds.2.2)
termination_by ks => (sizeOf (r0 :: rest), 0, ks.length)
decreasing_by
  · apply Prod.Lex.right
    apply Prod.Lex.right
    simp
  · exact Prod.Lex.left _ _ (sizeOf_objsFor _ r0 _)
  · exact Prod.Lex.left _ _ (sizeOf_listsFor _ r0 _)

end

/-- `AGON.train`: train an anchored schema from sample data. The keyword
defaults of the source are `min_gain=3.0`, `amortize=50`,
`max_dict_per_field=100`, `enum_like_only=True`, `max_enum_len=64`. -/
def train (tk : String → Nat) (data : List JObj) (context_id : String)
    (min_gain : ℚ) (amortize : Int) (max_dict_per_field : Int)
    (enum_like_only : Bool) (max_enum_len : Int) : Config :=
  let cfg : TrainingConfig :=
    ⟨min_gain, max 1 amortize, max_dict_per_field, enum_like_only, max_enum_len⟩
  match data with
  | [] => _anchor context_id (.mk [] [] [] [])
  | _ :: _ => _anchor context_id (_build_node tk cfg data)

/-- `train` at the source defaults. -/
def trainD (tk : String → Nat) (data : List JObj) (context_id : String) : Config :=
  train tk data context_id 3 50 100 true 64

/-- The AGON packet object built by `AGON.encode`:
`{"_f": "a", "c": cid, "v": v, "d": rows}`. -/
def packetVal (data : List JObj) (config : Config) : JVal :=
  .obj [("_f", .str "a"), ("c", .str config.cid), ("v", .str config.v),
        ("d", .arr ((_pack data config.schema).map JVal.arr))]

/-- The JSON value whose serialization `AGON.encode` returns: the raw list
on coverage failure, else the packet when forced or token-cheaper, else
the raw list. -/
def encodeVal (tk : String → Nat) (data : List JObj) (config : Config)
    (force_agon : Bool) : JVal :=
  if !force_agon && !_check_coverage data config.schema then .arr (data.map JVal.obj)
  else if force_agon then packetVal data config
  else if tk (jsonDump (packetVal data config)) < tk (jsonDump (.arr (data.map JVal.obj))) then
    packetVal data config
  else .arr (data.map JVal.obj)

/-- `AGON.encode`: the returned payload string
(`json_str = orjson.dumps(data).decode()`; `agon_str = orjson.dumps(agon_obj).decode()`;
`AGON._tk_text = tk`). -/
def encode (tk : String → Nat) (data : List JObj) (config : Config)
    (force_agon : Bool) : String :=
  jsonDump (encodeVal tk data config force_agon)

/-- `AGON.decode` on the parsed payload (`packet = orjson.loads(payload)`;
the unparsable-payload branch lives at the string level and is outside
this value-level model). `.error` models `raise AGONError(...)`. -/
def decode (packet : JVal) (config : Config) (strict : Bool) :
    Except String (List JVal) :=
  match packet with
  | .arr xs => .ok xs  -- adaptive fallback: raw JSON list is returned as-is
  | .obj kvs =>
    if List.lookup "_f" kvs = some (.str "a") then
      if strict && !(List.lookup "c" kvs = some (.str config.cid)) then
        .error "CID Mismatch"
      else if strict && !(List.lookup "v" kvs = some (.str config.v)) then
        .error "Version Mismatch"
      else
        match List.lookup "d" kvs with
        | some (.arr d_rows) =>
          (unpackRows d_rows config.schema strict).map fun out => out.map JVal.obj
        | _ => if strict then .error "Payload d must be a list" else .ok []
    else if strict then .error "Unknown format" else .ok []
  | _ => if strict then .error "Unknown format" else .ok []

theorem lookup_mem {l : List (String × α)} {key : String} {v : α}
    (h : List.lookup key l = some v) : (key, v) ∈ l := by
  induction l with
  | nil => simp [List.lookup] at h
  | cons p rest ih =>
    obtain ⟨a, b⟩ := p
    rw [List.lookup] at h
    by_cases hk : key == a
    · simp [hk] at h
      simp at hk
      subst hk
      subst h
      exact List.mem_cons_self _ _
    · simp [hk] at h
      exact List.mem_cons_of_mem _ (ih h)

theorem dictInsert_fresh {o : JObj} {key : String} {v : JVal}
    (h : key ∉ o.map Prod.fst) : dictInsert o key v = o ++ [(key, v)] := by
  induction o with
  | nil => simp [dictInsert]
  | cons p rest ih =>
    obtain ⟨a, b⟩ := p
    simp only [List.map_cons, List.mem_cons] at h
    push_neg at h
    rw [dictInsert, if_neg (fun hc => h.1 hc.symm)]
    rw [ih h.2]
    simp

theorem rstrip_spec (row : List JVal) :
    ∃ extra, row = rstripSentinel row ++ extra ∧ ∀ c ∈ extra, c = sentinelJ := by
  rw [rstripSentinel]
  induction row using List.reverseRecOn with
  | nil => exact ⟨[], by simp⟩
  | append_singleton xs x ih =>
    rw [List.reverse_append]
    simp only [List.reverse_singleton, List.singleton_append, List.dropWhile]
    by_cases hx : x == sentinelJ
    · obtain ⟨extra, he, hall⟩ := ih
      refine ⟨extra ++ [x], ?_, ?_⟩
      · rw [hx]
        conv_lhs => rw [he]
        simp
      · intro c hc
        rcases List.mem_append.mp hc with h1 | h1
        · exact hall c h1
        · simp at h1 hx
          simp [h1, hx]
    · simp only [Bool.not_eq_true] at hx
      rw [hx]
      exact ⟨[], by simp⟩

theorem rstrip_length (row : List JVal) : (rstripSentinel row).length ≤ row.length := by
  obtain ⟨extra, he, _⟩ := rstrip_spec row
  conv_rhs => rw [he]
  simp

theorem rstrip_getLast {row : List JVal} {c : JVal}
    (h : (rstripSentinel row).getLast? = some c) : c ≠ sentinelJ := by
  rw [rstripSentinel] at h
  intro hc
  subst hc
  rw [List.getLast?_reverse] at h
  cases hd : row.reverse.dropWhile (fun v => v == sentinelJ) with
  | nil => rw [hd] at h; simp at h
  | cons y ys =>
    rw [hd] at h
    simp at h
    have := List.head?_dropWhile_not (p := fun v => v == sentinelJ) row.reverse
    rw [hd] at this
    simp at this
    exact this h

theorem sInsert_perm (lt : α → α → Bool) (x : α) :
    ∀ l : List α, (sInsert lt x l).Perm (x :: l) := by
  intro l
  induction l with
  | nil => simp [sInsert]
  | cons y ys ih =>
    rw [sInsert]
    by_cases hc : lt y x
    · simp only [if_pos hc]
      exact ((ih.cons y).trans (List.Perm.swap x y ys)).symm.symm
    · simp [hc]

theorem sSort_perm (lt : α → α → Bool) : ∀ l : List α, (sSort lt l).Perm l := by
  intro l
  induction l with
  | nil => simp [sSort]
  | cons x xs ih =>
    rw [sSort]
    exact (sInsert_perm lt x (sSort lt xs)).trans (ih.cons x)

theorem sInsert_pairwise (f : α → Nat) (x : α) :
    ∀ l : List α, l.Pairwise (fun a b => f b ≤ f a) →
      (sInsert (fun a b => f a > f b) x l).Pairwise (fun a b => f b ≤ f a) := by
  intro l
  induction l with
  | nil => simp [sInsert]
  | cons y ys ih =>
    intro hp
    rw [List.pairwise_cons] at hp
    rw [sInsert]
    by_cases hc : f y > f x
    · rw [if_pos (by simpa using hc)]
      rw [List.pairwise_cons]
      constructor
      · intro b hb
        have hperm := sInsert_perm (fun a b => f a > f b) x ys
        rcases List.mem_cons.mp ((hperm.mem_iff).mp hb) with h1 | h1
        · subst h1; omega
        · exact hp.1 b h1
      · exact ih hp.2
    · rw [if_neg (by simpa using hc)]
      rw [List.pairwise_cons]
      refine ⟨?_, List.pairwise_cons.mpr hp⟩
      intro b hb
      simp at hc
      rcases List.mem_cons.mp hb with h1 | h1
      · subst h1; omega
      · have := hp.1 b h1; omega

theorem sSort_pairwise (f : α → Nat) :
    ∀ l : List α, (sSort (fun a b => f a > f b) l).Pairwise (fun a b => f b ≤ f a) := by
  intro l
  induction l with
  | nil => simp [sSort]
  | cons x xs ih =>
    rw [sSort]
    exact sInsert_pairwise f x (sSort (fun a b => f a > f b) xs) ih

theorem valMapFind_get {entries : List String} {s : String} {i : Nat}
    (h : valMapFind entries s = some i) : entries.get? i = some s := by
  induction entries generalizing i with
  | nil => simp [valMapFind] at h
  | cons e rest ih =>
    rw [valMapFind] at h
    cases hr : valMapFind rest s with
    | some j =>
      rw [hr] at h
      simp at h
      subst h
      simpa using ih hr
    | none =>
      rw [hr] at h
      by_cases he : e = s
      · simp [he] at h
        subst h
        simp [he]
      · simp [he] at h

theorem valMap_inv {entries : List String} {s : String} {i : Nat}
    (h : valMapFind entries s = some i) :
    invMapFind entries (-((i : Int) + 1)) = some s := by
  rw [invMapFind, if_pos (by omega)]
  have : ((-(-((i : Int) + 1))).toNat - 1) = i := by omega
  rw [this]
  simpa using valMapFind_get h

theorem packElems_all_arr (node : SchemaNode) :
    ∀ xs : List JVal, xs.all JVal.isObj = true →
      (packElems node xs).all JVal.isArr = true := by
  intro xs
  induction xs with
  | nil => intro _; rw [packElems]; simp
  | cons x rest ih =>
    intro h
    simp only [List.all_cons, Bool.and_eq_true] at h
    cases x with
    | obj o =>
      rw [packElems]
      simp only [List.all_cons, Bool.and_eq_true]
      exact ⟨by simp [JVal.isArr], ih h.2⟩
    | null => simp [JVal.isObj] at h
    | bool b => simp [JVal.isObj] at h
    | num m => simp [JVal.isObj] at h
    | str s2 => simp [JVal.isObj] at h
    | arr l2 => simp [JVal.isObj] at h

mutual

/-- Every object nested in the value has distinct keys (true of every
value obtained by parsing JSON or built from Python dict literals). -/
def pyObjOK : JVal → Bool
  | .arr xs => pyObjOKList xs
  | .obj ms => decide (ms.map Prod.fst).Nodup && pyObjOKMembers ms
  | _ => true
termination_by v => sizeOf v

/-- `pyObjOK` on array elements. -/
def pyObjOKList : List JVal → Bool
  | [] => true
  | x :: xs => pyObjOK x && pyObjOKList xs
termination_by xs => sizeOf xs

/-- `pyObjOK` on member values. -/
def pyObjOKMembers : List (String × JVal) → Bool
  | [] => true
  | (_, v) :: ms => pyObjOK v && pyObjOKMembers ms
termination_by ms => sizeOf ms

end

theorem lookup_self_of_nodup {ms : List (String × α)}
    (hnd : (ms.map Prod.fst).Nodup) :
    ∀ p ∈ ms, List.lookup p.1 ms = some p.2 := by
  induction ms with
  | nil => simp
  | cons q rest ih =>
    obtain ⟨a, b⟩ := q
    simp only [List.map_cons, List.nodup_cons] at hnd
    intro p hp
    rcases List.mem_cons.mp hp with h1 | h1
    · subst h1
      simp [List.lookup]
    · rw [List.lookup]
      have hne : p.1 ≠ a := by
        intro hc
        exact hnd.1 (by rw [← hc]; exact List.mem_map.mpr ⟨p, h1, rfl⟩)
      have hba : (p.1 == a) = false := by simpa using hne
      rw [hba]
      exact ih hnd.2 p h1

theorem pyObjOKMembers_mem {ms : List (String × JVal)}
    (h : pyObjOKMembers ms = true) : ∀ p ∈ ms, pyObjOK p.2 = true := by
  induction ms with
  | nil => simp
  | cons q rest ih =>
    obtain ⟨a, b⟩ := q
    rw [pyObjOKMembers] at h
    simp at h
    intro p hp
    rcases List.mem_cons.mp hp with h1 | h1
    · subst h1; exact h.1
    · exact ih h.2 p h1

theorem pyObjOKList_mem {xs : List JVal}
    (h : pyObjOKList xs = true) : ∀ x ∈ xs, pyObjOK x = true := by
  induction xs with
  | nil => simp
  | cons y rest ih =>
    rw [pyObjOKList] at h
    simp at h
    intro x hx
    rcases List.mem_cons.mp hx with h1 | h1
    · subst h1; exact h.1
    · exact ih h.2 x h1

theorem pyEqMembers_of {ms ys : List (String × JVal)}
    (h : ∀ p ∈ ms, ∃ w, List.lookup p.1 ys = some w ∧ pyEq p.2 w = true) :
    pyEqMembers ms ys = true := by
  induction ms with
  | nil => rw [pyEqMembers]
  | cons q rest ih =>
    obtain ⟨a, b⟩ := q
    rw [pyEqMembers]
    obtain ⟨w, hw, he⟩ := h (a, b) (List.mem_cons_self _ _)
    rw [hw]
    simp only [Bool.and_eq_true]
    exact ⟨he, ih fun p hp => h p (List.mem_cons_of_mem _ hp)⟩

mutual

theorem pyEq_refl : ∀ v : JVal, pyObjOK v = true → pyEq v v = true
  | .null, _ => by rw [pyEq]
  | .bool b, _ => by rw [pyEq]; simp
  | .num n, _ => by rw [pyEq]; simp
  | .str s, _ => by rw [pyEq]; simp
  | .arr xs, h => by
    rw [pyEq]
    exact pyEqList_refl xs (by rw [pyObjOK] at h; exact h)
  | .obj ms, h => by
    rw [pyEq]
    rw [pyObjOK] at h
    simp only [Bool.and_eq_true, decide_eq_true_eq] at h
    simp only [Bool.and_eq_true, beq_self_eq_true, true_and]
    apply pyEqMembers_of
    intro p hp
    exact ⟨p.2, lookup_self_of_nodup h.1 p hp,
      pyEq_refl p.2 (pyObjOKMembers_mem h.2 p hp)⟩
termination_by v => sizeOf v
decreasing_by
  · simp
  · have h1 : sizeOf p < sizeOf ms := List.sizeOf_lt_of_mem hp
    have h2 : sizeOf p.2 ≤ sizeOf p := by
      obtain ⟨x, y⟩ := p
      simp
    simp
    omega

theorem pyEqList_refl : ∀ xs : List JVal, pyObjOKList xs = true → pyEqList xs xs = true
  | [], _ => by rw [pyEqList]
  | x :: xs, h => by
    rw [pyEqList]
    rw [pyObjOKList] at h
    simp only [Bool.and_eq_true] at h ⊢
    exact ⟨pyEq_refl x h.1, pyEqList_refl xs h.2⟩
termination_by xs => sizeOf xs

end

mutual

/-- Schema conformance of an input object: keys are covered and distinct,
and each value fits the trained type of its key (objects at `obj` keys,
arrays of objects at `list` keys, strings at `dict` keys, and no raw
objects at `str`/`scalar` keys). -/
def confRow (node : SchemaNode) (r : JObj) : Bool :=
  decide (r.map Prod.fst).Nodup && confCells node r
termination_by (sizeOf r, 1)
decreasing_by
  apply Prod.Lex.right
  omega

/-- `confRow` member loop. -/
def confCells (node : SchemaNode) : JObj → Bool
  | [] => true
  | (key, v) :: rest => node.k.contains key && confVal node key v && confCells node rest
termination_by r => (sizeOf r, 0)
decreasing_by
  all_goals first
    | (apply Prod.Lex.right; omega)
    | (apply Prod.Lex.right; simp <;> omega)
    | (apply Prod.Lex.left; omega)
    | (apply Prod.Lex.left; simp <;> omega)

/-- Conformance of one value to the trained type of its key. -/
def confVal (node : SchemaNode) (key : String) (v : JVal) : Bool :=
  if v = .null then true
  else match lookupT node key, v with
  | .obj, .obj o => confRow (lookupS node key) o
  | .obj, _ => false
  | .list, .arr xs => confElems (lookupS node key) xs
  | .list, _ => false
  | .dict, .str _ => true
  | .dict, _ => false
  | _, .obj _ => false
  | _, w => pyObjOK w
termination_by (sizeOf v, 2)
decreasing_by
  all_goals first
    | (apply Prod.Lex.right; omega)
    | (apply Prod.Lex.right; simp <;> omega)
    | (apply Prod.Lex.left; omega)
    | (apply Prod.Lex.left; simp <;> omega)

/-- Conformance of the elements of a list-typed value: all objects,
each conformant to the sub-schema. -/
def confElems (node : SchemaNode) : List JVal → Bool
  | [] => true
  | .obj o :: xs => confRow node o && confElems node xs
  | _ :: _ => false
termination_by xs => (sizeOf xs, 0)
decreasing_by
  all_goals first
    | (apply Prod.Lex.right; omega)
    | (apply Prod.Lex.right; simp <;> omega)
    | (apply Prod.Lex.left; omega)
    | (apply Prod.Lex.left; simp <;> omega)

end

/-- Conformance of a whole input list. -/
def confRows (node : SchemaNode) (data : List JObj) : Bool :=
  data.all fun r => confRow node r

/-- What `train` guarantees of every node of the schema it produces:
distinct keys, and a (recursively well-formed) sub-schema wherever the
type tag is `obj` or `list`. -/
inductive WFNode : SchemaNode → Prop where
  | mk : ∀ node : SchemaNode,
      node.k.Nodup →
      (∀ key, lookupT node key = .obj ∨ lookupT node key = .list →
        WFNode (lookupS node key)) →
      WFNode node

theorem WFNode.nodup {node : SchemaNode} (h : WFNode node) : node.k.Nodup := by
  cases h with
  | mk _ h1 _ => exact h1

theorem WFNode.sub {node : SchemaNode} (h : WFNode node) (key : String)
    (ht : lookupT node key = .obj ∨ lookupT node key = .list) :
    WFNode (lookupS node key) := by
  cases h with
  | mk _ _ h2 => exact h2 key ht

theorem wf_empty : WFNode (.mk [] [] [] []) := by
  constructor
  · simp [SchemaNode.k]
  · intro key ht
    rcases ht with h | h <;> simp [lookupT, SchemaNode.t, List.lookup] at h

/-- The body of one iteration of the `_unpack` index loop, as a value:
`none` means the position is skipped (missing sentinel), `some (k, w)`
means `obj[k] = w`, `.error` models a raised `AGONError`. -/
def unpackCellStep (node : SchemaNode) (key : String) (v : JVal) (strict : Bool) :
    Except String (Option (String × JVal)) :=
  if v = sentinelJ then .ok none
  else if v = .null then .ok (some (key, .null))
  else match lookupT node key, v with
  | .obj, .arr cells2 =>
    if _validate_packed_row_structure (.arr cells2) (lookupS node key) then
      (unpackCells (lookupS node key) (lookupS node key).k cells2 strict []).map
        (fun o => some (key, .obj o))
    else .ok (some (key, .arr cells2))
  | .obj, w => .ok (some (key, w))
  | .list, .arr xs =>
    if xs.all JVal.isArr then
      (unpackRows xs (lookupS node key) strict).map
        (fun os => some (key, .arr (os.map JVal.obj)))
    else .ok (some (key, .arr xs))
  | .list, w => .ok (some (key, w))
  | .dict, .num n =>
    if n < 0 then
      match invMapFind (lookupD node key) n with
      | some s => .ok (some (key, .str s))
      | none =>
        if strict then .error (s!"Invalid dict ref {n} for {key}")
        else .ok (some (key, .num n))
    else .ok (some (key, .num n))
  | .dict, w => .ok (some (key, w))
  | _, w => .ok (some (key, w))

/-- One-step characterization of the `_unpack` index loop. -/
theorem unpackCells_cons (node : SchemaNode) (key : String) (ks : List String)
    (v : JVal) (vs : List JVal) (strict : Bool) (acc : JObj) :
    unpackCells node (key :: ks) (v :: vs) strict acc =
      (unpackCellStep node key v strict).bind fun r =>
        match r with
        | none => unpackCells node ks vs strict acc
        | some aw => unpackCells node ks vs strict (dictInsert acc aw.1 aw.2) := by
  by_cases hs : v = sentinelJ
  · subst hs
    simp [unpackCells, unpackCellStep, sentinelJ, Except.bind, Except.map, Bind.bind]
  · by_cases hn : v = .null
    · subst hn
      simp [unpackCells, unpackCellStep, sentinelJ, Except.bind, Except.map, Bind.bind]
    · cases v with
      | null => exact absurd rfl hn
      | bool b =>
        cases hlt : lookupT node key <;>
          simp [unpackCells, unpackCellStep, hlt, sentinelJ, Except.bind, Except.map, Bind.bind]
      | str s =>
        cases hlt : lookupT node key <;>
          simp [unpackCells, unpackCellStep, hlt, sentinelJ, Except.bind, Except.map, Bind.bind]
      | num n =>
        cases hlt : lookupT node key with
        | scalar => simp [unpackCells, unpackCellStep, hlt, sentinelJ, Except.bind, Except.map, Bind.bind]
        | str => simp [unpackCells, unpackCellStep, hlt, sentinelJ, Except.bind, Except.map, Bind.bind]
        | obj => simp [unpackCells, unpackCellStep, hlt, sentinelJ, Except.bind, Except.map, Bind.bind]
        | list => simp [unpackCells, unpackCellStep, hlt, sentinelJ, Except.bind, Except.map, Bind.bind]
        | dict =>
          simp only [unpackCells, unpackCellStep, hlt]
          by_cases hneg : n < 0
          · simp only [if_pos hneg]
            cases hi : invMapFind (lookupD node key) n with
            | some s => simp [hi, sentinelJ, Except.bind, Except.map, Bind.bind]
            | none => cases strict <;> simp [hi, sentinelJ, Except.bind, Except.map, Bind.bind]
          · simp [if_neg hneg, sentinelJ, Except.bind, Except.map, Bind.bind]
      | arr xs =>
        cases hlt : lookupT node key with
        | scalar => simp [unpackCells, unpackCellStep, hlt, sentinelJ, Except.bind, Except.map, Bind.bind]
        | str => simp [unpackCells, unpackCellStep, hlt, sentinelJ, Except.bind, Except.map, Bind.bind]
        | dict => simp [unpackCells, unpackCellStep, hlt, sentinelJ, Except.bind, Except.map, Bind.bind]
        | obj =>
          simp only [unpackCells, unpackCellStep, hlt]
          by_cases hval : _validate_packed_row_structure (.arr xs) (lookupS node key)
          · simp only [if_pos hval]
            cases hnest : unpackCells (lookupS node key) (lookupS node key).k xs strict [] with
            | ok o => simp [hnest, sentinelJ, Except.bind, Except.map, Bind.bind]
            | error e => simp [hnest, sentinelJ, Except.bind, Except.map, Bind.bind]
          · simp [if_neg hval, sentinelJ, Except.bind, Except.map, Bind.bind]
        | list =>
          simp only [unpackCells, unpackCellStep, hlt]
          by_cases hall : xs.all JVal.isArr
          · simp only [if_pos hall]
            cases hnest : unpackRows xs (lookupS node key) strict with
            | ok os => simp [hnest, sentinelJ, Except.bind, Except.map, Bind.bind]
            | error e => simp [hnest, sentinelJ, Except.bind, Except.map, Bind.bind]
          · simp only [if_neg hall]
            simp [sentinelJ, Except.bind, Except.map, Bind.bind]
      | obj o =>
        cases hlt : lookupT node key <;>
          simp [unpackCells, unpackCellStep, hlt, hs, Except.bind, Except.map, Bind.bind]

theorem unpackCells_sentinels (node : SchemaNode) (strict : Bool) :
    ∀ extra : List JVal, ∀ ks : List String, ∀ acc : JObj,
      (∀ c ∈ extra, c = sentinelJ) →
      unpackCells node ks extra strict acc = .ok acc := by
  intro extra
  induction extra with
  | nil =>
    intro ks acc _
    cases ks <;> simp [unpackCells]
  | cons c cs ih =>
    intro ks acc hall
    cases ks with
    | nil => simp [unpackCells]
    | cons k ks2 =>
      have hc := hall c (List.mem_cons_self _ _)
      subst hc
      rw [unpackCells_cons]
      simp only [unpackCellStep, if_pos, Except.bind, reduceIte]
      exact ih ks2 acc fun x hx => hall x (List.mem_cons_of_mem _ hx)

theorem unpackCells_take (node : SchemaNode) (strict : Bool) :
    ∀ ks : List String, ∀ cells : List JVal, ∀ acc : JObj,
      unpackCells node ks cells strict acc =
        unpackCells node ks (cells.take ks.length) strict acc := by
  intro ks
  induction ks with
  | nil =>
    intro cells acc
    simp [unpackCells]
  | cons k ks ih =>
    intro cells acc
    cases cells with
    | nil => simp
    | cons v vs =>
      simp only [List.length_cons, List.take_succ_cons]
      rw [unpackCells_cons, unpackCells_cons]
      cases hstep : unpackCellStep node k v strict with
      | error e => simp [Except.bind]
      | ok r =>
        simp only [Except.bind]
        cases r with
        | none => exact ih vs acc
        | some aw => exact ih vs (dictInsert acc aw.1 aw.2)

theorem unpackCells_drop_sentinels (node : SchemaNode) (strict : Bool) :
    ∀ cells extra : List JVal, ∀ ks : List String, ∀ acc : JObj,
      (∀ c ∈ extra, c = sentinelJ) →
      unpackCells node ks (cells ++ extra) strict acc =
        unpackCells node ks cells strict acc := by
  intro cells
  induction cells with
  | nil =>
    intro extra ks acc hall
    rw [List.nil_append, unpackCells_sentinels node strict extra ks acc hall]
    cases ks <;> simp [unpackCells]
  | cons v vs ih =>
    intro extra ks acc hall
    cases ks with
    | nil => simp [unpackCells]
    | cons k ks2 =>
      rw [List.cons_append, unpackCells_cons, unpackCells_cons]
      cases hstep : unpackCellStep node k v strict with
      | error e => simp [Except.bind]
      | ok r =>
        simp only [Except.bind]
        cases r with
        | none => exact ih extra ks2 acc hall
        | some aw => exact ih extra ks2 (dictInsert acc aw.1 aw.2) hall

theorem confRow_parts {node : SchemaNode} {r : JObj} (h : confRow node r = true) :
    (r.map Prod.fst).Nodup ∧ confCells node r = true := by
  rw [confRow] at h
  simp only [Bool.and_eq_true, decide_eq_true_eq] at h
  exact h

theorem confCells_mem {node : SchemaNode} :
    ∀ {r : JObj}, confCells node r = true →
      ∀ p ∈ r, p.1 ∈ node.k ∧ confVal node p.1 p.2 = true := by
  intro r
  induction r with
  | nil => simp
  | cons q rest ih =>
    obtain ⟨a, b⟩ := q
    intro h p hp
    rw [confCells] at h
    simp only [Bool.and_eq_true] at h
    rcases List.mem_cons.mp hp with h1 | h1
    · subst h1
      exact ⟨by simpa using h.1.1, h.1.2⟩
    · exact ih h.2 p h1

theorem confElems_mem {node : SchemaNode} :
    ∀ {xs : List JVal}, confElems node xs = true →
      ∀ x ∈ xs, ∃ o, x = .obj o ∧ confRow node o = true := by
  intro xs
  induction xs with
  | nil => simp
  | cons y rest ih =>
    intro h x hx
    cases y with
    | obj o =>
      rw [confElems] at h
      simp only [Bool.and_eq_true] at h
      rcases List.mem_cons.mp hx with h1 | h1
      · subst h1
        exact ⟨o, rfl, h.1⟩
      · exact ih h.2 x h1
    | null => simp [confElems] at h
    | bool b => simp [confElems] at h
    | num n => simp [confElems] at h
    | str s => simp [confElems] at h
    | arr l => simp [confElems] at h

theorem confElems_all_obj {node : SchemaNode} {xs : List JVal}
    (h : confElems node xs = true) : xs.all JVal.isObj = true := by
  simp only [List.all_eq_true]
  intro x hx
  obtain ⟨o, ho, _⟩ := confElems_mem h x hx
  subst ho
  simp [JVal.isObj]

theorem lookup_isSome_iff {r : List (String × α)} {key : String} :
    (List.lookup key r).isSome = true ↔ key ∈ r.map Prod.fst := by
  induction r with
  | nil => simp [List.lookup]
  | cons p rest ih =>
    obtain ⟨a, b⟩ := p
    rw [List.lookup]
    by_cases hk : key == a
    · simp at hk
      subst hk
      simp
    · have hk2 : (key == a) = false := by simpa using hk
      rw [hk2]
      simp only [List.map_cons, List.mem_cons]
      rw [ih]
      constructor
      · exact fun h => Or.inr h
      · intro h
        rcases h with h | h
        · exact absurd h (by simpa using hk)
        · exact h

theorem packCell_cellOK {node : SchemaNode} {r : JObj}
    (hconf : ∀ k v, List.lookup k r = some v → confVal node k v = true) :
    ∀ key, cellOK node key (packCell node r key) = true := by
  intro key
  cases hlk : List.lookup key r with
  | none =>
    have hpc : packCell node r key = sentinelJ := by rw [packCell, hlk]
    rw [hpc]
    simp [cellOK, sentinelJ]
  | some v =>
    have hpc : packCell node r key = if v = JVal.null then JVal.null else packVal node key v := by
      rw [packCell, hlk]
    rw [hpc]
    by_cases hv : v = JVal.null
    · simp [hv, cellOK]
    · rw [if_neg hv]
      have hc := hconf key v hlk
      cases hlt : lookupT node key with
      | obj =>
        cases v with
        | obj o =>
          simp [packVal, hlt, cellOK, sentinelJ, JVal.isArr]
        | null => exact absurd rfl hv
        | bool b => simp [confVal, hlt] at hc
        | num n => simp [confVal, hlt] at hc
        | str s => simp [confVal, hlt] at hc
        | arr xs => simp [confVal, hlt] at hc
      | list =>
        cases v with
        | arr xs =>
          have hobj : xs.all JVal.isObj = true :=
            confElems_all_obj (by simpa [confVal, hlt] using hc)
          have harr := packElems_all_arr (lookupS node key) xs hobj
          simp [packVal, hlt, hobj, cellOK, sentinelJ, harr]
        | null => exact absurd rfl hv
        | bool b => simp [confVal, hlt] at hc
        | num n => simp [confVal, hlt] at hc
        | str s => simp [confVal, hlt] at hc
        | obj o => simp [confVal, hlt] at hc
      | dict =>
        cases v with
        | str s =>
          rw [packVal]
          simp only [hlt]
          cases hvm : valMapFind (lookupD node key) s with
          | some i => simp [hvm, hlt, cellOK, sentinelJ]
          | none => simp [hvm, hlt, cellOK, sentinelJ]
        | null => exact absurd rfl hv
        | bool b => simp [confVal, hlt] at hc
        | num n => simp [confVal, hlt] at hc
        | obj o => simp [confVal, hlt] at hc
        | arr xs => simp [confVal, hlt] at hc
      | scalar =>
        cases v with
        | obj o => simp [confVal, hlt] at hc
        | null => exact absurd rfl hv
        | bool b => simp [packVal, hlt, cellOK, sentinelJ]
        | num n => simp [packVal, hlt, cellOK, sentinelJ]
        | str s => simp [packVal, hlt, cellOK, sentinelJ]
        | arr xs => simp [packVal, hlt, cellOK, sentinelJ]
      | str =>
        cases v with
        | obj o => simp [confVal, hlt] at hc
        | null => exact absurd rfl hv
        | bool b => simp [packVal, hlt, cellOK, sentinelJ]
        | num n => simp [packVal, hlt, cellOK, sentinelJ]
        | str s => simp [packVal, hlt, cellOK, sentinelJ]
        | arr xs => simp [packVal, hlt, cellOK, sentinelJ]

theorem validCells_zip_prefix {node : SchemaNode} {f : String → JVal} :
    ∀ ks : List String, (∀ k ∈ ks, cellOK node k (f k) = true) →
      ∀ cells rest : List JVal, ks.map f = cells ++ rest →
        validCells node (ks.zip cells) = true := by
  intro ks
  induction ks with
  | nil =>
    intro _ cells rest _
    simp [validCells]
  | cons k ks ih =>
    intro hall cells rest hmap
    cases cells with
    | nil => simp [validCells]
    | cons c cs =>
      simp only [List.map_cons, List.cons_append, List.cons.injEq] at hmap
      rw [List.zip_cons_cons, validCells]
      simp only [Bool.and_eq_true]
      constructor
      · rw [← hmap.1]
        exact hall k (List.mem_cons_self _ _)
      · exact ih (fun x hx => hall x (List.mem_cons_of_mem _ hx)) cs rest hmap.2

theorem pack_row_valid {node : SchemaNode} {r : JObj}
    (hconf : ∀ k v, List.lookup k r = some v → confVal node k v = true) :
    _validate_packed_row_structure (.arr (rstripSentinel (packRowCore node r))) node = true := by
  rw [_validate_packed_row_structure]
  simp only [Bool.and_eq_true, decide_eq_true_eq]
  constructor
  · have h1 := rstrip_length (packRowCore node r)
    calc (rstripSentinel (packRowCore node r)).length
        ≤ (packRowCore node r).length := h1
      _ = node.k.length := by rw [packRowCore]; simp
  · obtain ⟨extra, he, _⟩ := rstrip_spec (packRowCore node r)
    refine validCells_zip_prefix node.k (fun k _ => packCell_cellOK hconf k)
      (rstripSentinel (packRowCore node r)) extra ?_
    rw [← he, packRowCore]

theorem unpack_packed_cells (node : SchemaNode) (r : JObj) (strict : Bool)
    (hstep : ∀ key v, List.lookup key r = some v → v ≠ .null →
      ∃ w, unpackCellStep node key (packVal node key v) strict = .ok (some (key, w)) ∧
        pyEq w v = true) :
    ∀ ks : List String, ∀ acc : JObj, ks.Nodup → (∀ k ∈ ks, k ∉ acc.map Prod.fst) →
      ∃ tail, unpackCells node ks (ks.map fun key => packCell node r key) strict acc =
          .ok (acc ++ tail) ∧
        tail.map Prod.fst = ks.filter (fun k => hasKey r k) ∧
        (∀ p ∈ tail, ∃ v, List.lookup p.1 r = some v ∧ pyEq p.2 v = true) := by
  intro ks
  induction ks with
  | nil =>
    intro acc _ _
    exact ⟨[], by simp [unpackCells], by simp, by simp⟩
  | cons k ks ih =>
    intro acc hnd hdisj
    rw [List.nodup_cons] at hnd
    rw [List.map_cons, unpackCells_cons]
    cases hlk : List.lookup k r with
    | none =>
      have hpc : packCell node r k = sentinelJ := by rw [packCell, hlk]
      have hst : unpackCellStep node k sentinelJ strict = .ok none := by
        simp [unpackCellStep]
      rw [hpc, hst]
      simp only [Except.bind]
      obtain ⟨tail, heq, hkeys, hvals⟩ :=
        ih acc hnd.2 fun x hx => hdisj x (List.mem_cons_of_mem _ hx)
      refine ⟨tail, heq, ?_, hvals⟩
      rw [List.filter_cons]
      have hhk : hasKey r k = false := by simp [hasKey, hlk]
      rw [hhk]
      simpa using hkeys
    | some v =>
      have hfresh : dictInsert acc k = fun w => acc ++ [(k, w)] := by
        funext w
        exact dictInsert_fresh (hdisj k (List.mem_cons_self _ _))
      have hdisj2 : ∀ w : JVal, ∀ x ∈ ks, x ∉ ((acc ++ [(k, w)]).map Prod.fst) := by
        intro w x hx
        rw [List.map_append, List.mem_append]
        rintro (hc | hc)
        · exact hdisj x (List.mem_cons_of_mem _ hx) hc
        · simp at hc
          exact hnd.1 (hc ▸ hx)
      have hhk : hasKey r k = true := by simp [hasKey, hlk]
      by_cases hv : v = JVal.null
      · subst hv
        have hpc : packCell node r k = JVal.null := by
          rw [packCell]
          split <;> simp_all
        have hst : unpackCellStep node k JVal.null strict = .ok (some (k, JVal.null)) := by
          simp [unpackCellStep, sentinelJ]
        rw [hpc, hst]
        simp only [Except.bind]
        rw [show (dictInsert acc k JVal.null) = acc ++ [(k, JVal.null)] from congrFun hfresh _]
        obtain ⟨tail, heq, hkeys, hvals⟩ := ih (acc ++ [(k, JVal.null)]) hnd.2 (hdisj2 _)
        refine ⟨(k, JVal.null) :: tail, ?_, ?_, ?_⟩
        · rw [heq]
          simp
        · simp only [List.filter_cons, hhk, List.map_cons, if_true]
          rw [hkeys]
        · intro p hp
          rcases List.mem_cons.mp hp with h1 | h1
          · subst h1
            exact ⟨JVal.null, hlk, by simp [pyEq]⟩
          · exact hvals p h1
      · have hpc : packCell node r k = packVal node k v := by
          rw [packCell]
          split <;> simp_all
        obtain ⟨w, hsw, hpe⟩ := hstep k v hlk hv
        rw [hpc, hsw]
        simp only [Except.bind]
        rw [show (dictInsert acc k w) = acc ++ [(k, w)] from congrFun hfresh _]
        obtain ⟨tail, heq, hkeys, hvals⟩ := ih (acc ++ [(k, w)]) hnd.2 (hdisj2 _)
        refine ⟨(k, w) :: tail, ?_, ?_, ?_⟩
        · rw [heq]
          simp
        · simp only [List.filter_cons, hhk, List.map_cons, if_true]
          rw [hkeys]
        · intro p hp
          rcases List.mem_cons.mp hp with h1 | h1
          · subst h1
            exact ⟨v, hlk, hpe⟩
          · exact hvals p h1

theorem filter_hasKey_length {node : SchemaNode} {r : JObj}
    (hk : node.k.Nodup) (hr : (r.map Prod.fst).Nodup)
    (hcov : ∀ p ∈ r, p.1 ∈ node.k) :
    (node.k.filter fun k => hasKey r k).length = r.length := by
  have hperm : (node.k.filter fun k => hasKey r k).Perm (r.map Prod.fst) := by
    rw [List.perm_ext_iff_of_nodup (hk.filter _) hr]
    intro a
    rw [List.mem_filter]
    constructor
    · rintro ⟨_, hs⟩
      exact lookup_isSome_iff.mp (by simpa [hasKey] using hs)
    · intro ha
      refine ⟨?_, by simpa [hasKey] using lookup_isSome_iff.mpr ha⟩
      obtain ⟨p, hp, hpa⟩ := List.mem_map.mp ha
      exact hpa ▸ hcov p hp
  rw [hperm.length_eq, List.length_map]

theorem sizeOf_jval_pos (v : JVal) : 0 < sizeOf v := by
  cases v <;> simp <;> omega

theorem roundtrip_fuel : ∀ n : Nat,
    (∀ node : SchemaNode, ∀ r : JObj, ∀ strict : Bool, sizeOf r ≤ n → WFNode node →
      confRow node r = true →
      ∃ out, unpackCells node node.k (rstripSentinel (packRowCore node r)) strict [] =
          .ok out ∧ pyEq (.obj out) (.obj r) = true) ∧
    (∀ node : SchemaNode, ∀ key : String, ∀ v : JVal, ∀ strict : Bool, sizeOf v ≤ n →
      WFNode node → confVal node key v = true → v ≠ .null →
      ∃ w, unpackCellStep node key (packVal node key v) strict = .ok (some (key, w)) ∧
        pyEq w v = true) ∧
    (∀ node : SchemaNode, ∀ xs : List JVal, ∀ strict : Bool, sizeOf xs ≤ n → WFNode node →
      confElems node xs = true →
      ∃ os, unpackRows (packElems node xs) node strict = .ok os ∧
        pyEqList (os.map JVal.obj) xs = true) ∧
    (∀ node : SchemaNode, ∀ data : List JObj, ∀ strict : Bool, sizeOf data ≤ n → WFNode node →
      confRows node data = true →
      ∃ os, unpackRows ((_pack data node).map JVal.arr) node strict = .ok os ∧
        pyEqList (os.map JVal.obj) (data.map JVal.obj) = true) := by
  intro n
  induction n with
  | zero =>
    refine ⟨?_, ?_, ?_, ?_⟩
    · intro node r strict hle
      cases r <;> simp at hle
    · intro node key v strict hle
      have := sizeOf_jval_pos v
      omega
    · intro node xs strict hle
      cases xs <;> simp at hle
    · intro node data strict hle
      cases data <;> simp at hle
  | succ n ihn =>
    obtain ⟨ihA, ihC, ihD, ihE⟩ := ihn
    -- (A) row level at n+1
    have hA : ∀ node : SchemaNode, ∀ r : JObj, ∀ strict : Bool, sizeOf r ≤ n + 1 →
        WFNode node → confRow node r = true →
        ∃ out, unpackCells node node.k (rstripSentinel (packRowCore node r)) strict [] =
            .ok out ∧ pyEq (.obj out) (.obj r) = true := by
      intro node r strict hle hwf hcr
      obtain ⟨hrnd, hcc⟩ := confRow_parts hcr
      have hconf : ∀ k v, List.lookup k r = some v → confVal node k v = true :=
        fun k v hlk => (confCells_mem hcc (k, v) (lookup_mem hlk)).2
      have hcov : ∀ p ∈ r, p.1 ∈ node.k := fun p hp => (confCells_mem hcc p hp).1
      have hstep : ∀ key v, List.lookup key r = some v → v ≠ .null →
          ∃ w, unpackCellStep node key (packVal node key v) strict = .ok (some (key, w)) ∧
            pyEq w v = true := by
        intro key v hlk hv
        have hsz : sizeOf v ≤ n := by
          have := sizeOf_lookup hlk
          omega
        exact ihC node key v strict hsz hwf (hconf key v hlk) hv
      obtain ⟨extra, he, hex⟩ := rstrip_spec (packRowCore node r)
      have hdrop := unpackCells_drop_sentinels node strict
        (rstripSentinel (packRowCore node r)) extra node.k [] hex
      have h1 : unpackCells node node.k (packRowCore node r) strict [] =
          unpackCells node node.k (rstripSentinel (packRowCore node r)) strict [] := by
        conv_lhs => rw [he]
        exact hdrop
      obtain ⟨tail, heq, hkeys, hvals⟩ :=
        unpack_packed_cells node r strict hstep node.k [] hwf.nodup (by simp)
      rw [show (node.k.map fun key => packCell node r key) = packRowCore node r from
        by rw [packRowCore]] at heq
      rw [h1] at heq
      refine ⟨tail, by simpa using heq, ?_⟩
      rw [pyEq]
      simp only [Bool.and_eq_true, beq_iff_eq]
      constructor
      · have h1 : tail.length = (node.k.filter fun k => hasKey r k).length := by
          rw [← hkeys, List.length_map]
        rw [h1, filter_hasKey_length hwf.nodup hrnd hcov]
      · exact pyEqMembers_of hvals
    -- (C) value level at n+1
    have hC : ∀ node : SchemaNode, ∀ key : String, ∀ v : JVal, ∀ strict : Bool,
        sizeOf v ≤ n + 1 → WFNode node → confVal node key v = true → v ≠ .null →
        ∃ w, unpackCellStep node key (packVal node key v) strict = .ok (some (key, w)) ∧
          pyEq w v = true := by
      intro node key v strict hle hwf hcv hv
      cases hlt : lookupT node key with
      | obj =>
        cases v with
        | null => exact absurd rfl hv
        | bool b => simp [confVal, hlt] at hcv
        | num m => simp [confVal, hlt] at hcv
        | str s => simp [confVal, hlt] at hcv
        | arr xs => simp [confVal, hlt] at hcv
        | obj o =>
          have hsub : confRow (lookupS node key) o = true := by
            simpa [confVal, hlt] using hcv
          have hwfs : WFNode (lookupS node key) := hwf.sub key (Or.inl hlt)
          have hsz : sizeOf o ≤ n := by
            simp at hle
            omega
          obtain ⟨out, hok, hpe⟩ := ihA (lookupS node key) o strict hsz hwfs hsub
          have hval : _validate_packed_row_structure
              (.arr (rstripSentinel (packRowCore (lookupS node key) o)))
              (lookupS node key) = true := by
            apply pack_row_valid
            intro k2 v2 hlk2
            exact (confCells_mem (confRow_parts hsub).2 (k2, v2) (lookup_mem hlk2)).2
          refine ⟨.obj out, ?_, by simpa [pyEq] using hpe⟩
          rw [packVal]
          simp only [hlt]
          simp [unpackCellStep, hlt, hval, hok, sentinelJ, Except.map]
      | list =>
        cases v with
        | null => exact absurd rfl hv
        | bool b => simp [confVal, hlt] at hcv
        | num m => simp [confVal, hlt] at hcv
        | str s => simp [confVal, hlt] at hcv
        | obj o => simp [confVal, hlt] at hcv
        | arr xs =>
          have hsub : confElems (lookupS node key) xs = true := by
            simpa [confVal, hlt] using hcv
          have hwfs : WFNode (lookupS node key) := hwf.sub key (Or.inr hlt)
          have hobj := confElems_all_obj hsub
          have hsz : sizeOf xs ≤ n := by
            simp at hle
            omega
          obtain ⟨os, hok, hpe⟩ := ihD (lookupS node key) xs strict hsz hwfs hsub
          have harr := packElems_all_arr (lookupS node key) xs hobj
          refine ⟨.arr (os.map JVal.obj), ?_, by simpa [pyEq] using hpe⟩
          rw [packVal]
          simp only [hlt, hobj, if_true]
          simp [unpackCellStep, hlt, harr, hok, sentinelJ, Except.map]
      | dict =>
        cases v with
        | null => exact absurd rfl hv
        | bool b => simp [confVal, hlt] at hcv
        | num m => simp [confVal, hlt] at hcv
        | obj o => simp [confVal, hlt] at hcv
        | arr xs => simp [confVal, hlt] at hcv
        | str s =>
          rw [packVal]
          simp only [hlt]
          cases hvm : valMapFind (lookupD node key) s with
          | some i =>
            refine ⟨.str s, ?_, by simp [pyEq]⟩
            simp only [hvm]
            have hinv2 : invMapFind (lookupD node key) (-1 + -(i : Int)) = some s := by
              rw [show (-1 + -(i : Int)) = -((i : Int) + 1) from by ring]
              exact valMap_inv hvm
            have hlt2 : (-1 : Int) + -(i : Int) < 0 := by omega
            simp [unpackCellStep, hlt, sentinelJ, hlt2, hinv2]
          | none =>
            refine ⟨.str s, ?_, by simp [pyEq]⟩
            simp only [hvm]
            simp [unpackCellStep, hlt, sentinelJ]
      | scalar =>
        have hno : ∀ o, v ≠ .obj o := by
          intro o hc
          subst hc
          simp [confVal, hlt] at hcv
        have hok : pyObjOK v = true := by
          cases v <;> first
            | exact absurd rfl hv
            | exact absurd rfl (hno _)
            | simpa [confVal, hlt] using hcv
        have hpv : packVal node key v = v := by
          cases v <;> simp [packVal, hlt]
        refine ⟨v, ?_, pyEq_refl v hok⟩
        rw [hpv]
        cases v with
        | null => exact absurd rfl hv
        | obj o => exact absurd rfl (hno o)
        | bool b => simp [unpackCellStep, hlt, sentinelJ]
        | num m => simp [unpackCellStep, hlt, sentinelJ]
        | str s2 => simp [unpackCellStep, hlt, sentinelJ]
        | arr l2 => simp [unpackCellStep, hlt, sentinelJ]
      | str =>
        have hno : ∀ o, v ≠ .obj o := by
          intro o hc
          subst hc
          simp [confVal, hlt] at hcv
        have hok : pyObjOK v = true := by
          cases v <;> first
            | exact absurd rfl hv
            | exact absurd rfl (hno _)
            | simpa [confVal, hlt] using hcv
        have hpv : packVal node key v = v := by
          cases v <;> simp [packVal, hlt]
        refine ⟨v, ?_, pyEq_refl v hok⟩
        rw [hpv]
        cases v with
        | null => exact absurd rfl hv
        | obj o => exact absurd rfl (hno o)
        | bool b => simp [unpackCellStep, hlt, sentinelJ]
        | num m => simp [unpackCellStep, hlt, sentinelJ]
        | str s2 => simp [unpackCellStep, hlt, sentinelJ]
        | arr l2 => simp [unpackCellStep, hlt, sentinelJ]
    -- (D) list-element level at n+1
    have hD : ∀ node : SchemaNode, ∀ xs : List JVal, ∀ strict : Bool, sizeOf xs ≤ n + 1 →
        WFNode node → confElems node xs = true →
        ∃ os, unpackRows (packElems node xs) node strict = .ok os ∧
          pyEqList (os.map JVal.obj) xs = true := by
      intro node xs strict hle hwf hce
      cases xs with
      | nil => exact ⟨[], by simp [packElems, unpackRows], by simp [pyEqList]⟩
      | cons x rest =>
        obtain ⟨o, ho, hro⟩ := confElems_mem hce x (List.mem_cons_self _ _)
        subst ho
        have hrest : confElems node rest = true := by
          rw [confElems] at hce
          simp only [Bool.and_eq_true] at hce
          exact hce.2
        have hszo : sizeOf o ≤ n := by
          simp at hle
          omega
        have hszr : sizeOf rest ≤ n := by
          simp at hle
          omega
        obtain ⟨out, hok, hpe⟩ := ihA node o strict hszo hwf hro
        obtain ⟨os, hoks, hpes⟩ := ihD node rest strict hszr hwf hrest
        have hpc : packElems node (JVal.obj o :: rest) =
            .arr (rstripSentinel (packRowCore node o)) :: packElems node rest := by
          rw [packElems]
        refine ⟨out :: os, ?_, ?_⟩
        · rw [hpc]
          rw [unpackRows]
          rw [hok, hoks]
          rfl
        · simp only [List.map_cons]
          rw [pyEqList]
          simp only [Bool.and_eq_true]
          exact ⟨by simpa [pyEq] using hpe, hpes⟩
    -- (E) top rows level at n+1
    have hE : ∀ node : SchemaNode, ∀ data : List JObj, ∀ strict : Bool,
        sizeOf data ≤ n + 1 → WFNode node → confRows node data = true →
        ∃ os, unpackRows ((_pack data node).map JVal.arr) node strict = .ok os ∧
          pyEqList (os.map JVal.obj) (data.map JVal.obj) = true := by
      intro node data strict hle hwf hcd
      cases data with
      | nil => exact ⟨[], by simp [_pack, unpackRows], by simp [pyEqList]⟩
      | cons r rest =>
        have hcr : confRow node r = true := by
          rw [confRows] at hcd
          simp only [List.all_cons, Bool.and_eq_true] at hcd
          exact hcd.1
        have hrest : confRows node rest = true := by
          rw [confRows] at hcd
          simp only [List.all_cons, Bool.and_eq_true] at hcd
          rw [confRows]
          exact hcd.2
        have hszr : sizeOf r ≤ n := by
          simp at hle
          omega
        have hszrest : sizeOf rest ≤ n := by
          simp at hle
          omega
        obtain ⟨out, hok, hpe⟩ := ihA node r strict hszr hwf hcr
        obtain ⟨os, hoks, hpes⟩ := ihE node rest strict hszrest hwf hrest
        refine ⟨out :: os, ?_, ?_⟩
        · rw [show (_pack (r :: rest) node).map JVal.arr =
              .arr (rstripSentinel (packRowCore node r)) :: (_pack rest node).map JVal.arr from
            by simp [_pack]]
          rw [unpackRows]
          rw [hok, hoks]
          rfl
        · simp only [List.map_cons]
          rw [pyEqList]
          simp only [Bool.and_eq_true]
          exact ⟨hpe, hpes⟩
    exact ⟨hA, hC, hD, hE⟩

theorem pack_unpack_roundtrip (node : SchemaNode) (data : List JObj) (strict : Bool)
    (hwf : WFNode node) (hconf : confRows node data = true) :
    ∃ os, unpackRows ((_pack data node).map JVal.arr) node strict = .ok os ∧
      pyEqList (os.map JVal.obj) (data.map JVal.obj) = true :=
  (roundtrip_fuel (sizeOf data)).2.2.2 node data strict le_rfl hwf hconf

theorem firstOccs_nodup [BEq α] [LawfulBEq α] :
    ∀ l seen : List α, (firstOccs seen l).Nodup ∧ ∀ x ∈ firstOccs seen l, x ∉ seen := by
  intro l
  induction l with
  | nil => intro seen; simp [firstOccs]
  | cons x xs ih =>
    intro seen
    rw [firstOccs]
    by_cases hc : seen.contains x
    · rw [if_pos hc]
      exact ih seen
    · rw [if_neg hc]
      obtain ⟨hnd, hni⟩ := ih (x :: seen)
      refine ⟨List.nodup_cons.mpr ⟨?_, hnd⟩, ?_⟩
      · intro hmem
        exact hni x hmem (List.mem_cons_self _ _)
      · intro y hy hyseen
        rcases List.mem_cons.mp hy with h1 | h1
        · subst h1
          refine hc ?_
          rw [List.contains_iff_exists_mem_beq]
          exact ⟨y, hyseen, by simp⟩
        · exact hni y h1 (List.mem_cons_of_mem _ hyseen)

theorem buildEntries_subs (tk : String → Nat) (cfg : TrainingConfig) (r0 : JObj)
    (rest : List JObj) :
    ∀ ks : List String, ∀ key : String, ∀ sub : SchemaNode,
      (key, sub) ∈ (buildEntries tk cfg r0 rest ks).2.2 →
      sub = _build_node tk cfg (objsFor key (r0 :: rest)) ∨
      sub = _build_node tk cfg (listsFor key (r0 :: rest)) := by
  intro ks
  induction ks with
  | nil =>
    intro key sub h
    simp [buildEntries] at h
  | cons k0 ks ih =>
    intro key sub h
    simp only [buildEntries] at h
    by_cases h1 : isMixedAt (r0 :: rest) k0
    · rw [if_pos h1] at h
      exact ih key sub h
    · rw [if_neg h1] at h
      by_cases h2 : hasObjAt (r0 :: rest) k0 && !listHasDictsAt (r0 :: rest) k0
          && !hasStringAt (r0 :: rest) k0
      · rw [if_pos h2] at h
        simp only [] at h
        rcases List.mem_cons.mp h with hc | hc
        · obtain ⟨hk, hs⟩ := Prod.mk.injEq .. ▸ hc
          subst hk
          exact Or.inl hs
        · exact ih key sub hc
      · rw [if_neg h2] at h
        by_cases h3 : listHasDictsAt (r0 :: rest) k0 && !hasObjAt (r0 :: rest) k0
            && !hasStringAt (r0 :: rest) k0
        · rw [if_pos h3] at h
          simp only [] at h
          rcases List.mem_cons.mp h with hc | hc
          · obtain ⟨hk, hs⟩ := Prod.ext_iff.mp hc
            subst hk
            exact Or.inr hs
          · exact ih key sub hc
        · rw [if_neg h3] at h
          by_cases h4 : hasStringAt (r0 :: rest) k0 && !hasObjAt (r0 :: rest) k0
              && !listHasDictsAt (r0 :: rest) k0
          · rw [if_pos h4] at h
            cases hopt : _optimize_string tk cfg k0 (stringsFor k0 (r0 :: rest)) with
            | some entries =>
              rw [hopt] at h
              simp only [] at h
              exact ih key sub h
            | none =>
              rw [hopt] at h
              simp only [] at h
              exact ih key sub h
          · rw [if_neg h4] at h
            exact ih key sub h

theorem buildEntries_lookup (tk : String → Nat) (cfg : TrainingConfig) (r0 : JObj)
    (rest : List JObj) :
    ∀ ks : List String, ∀ key : String, ∀ tag : TType,
      List.lookup key (buildEntries tk cfg r0 rest ks).1 = some tag →
      (tag = .obj →
        List.lookup key (buildEntries tk cfg r0 rest ks).2.2 =
          some (_build_node tk cfg (objsFor key (r0 :: rest)))) ∧
      (tag = .list →
        List.lookup key (buildEntries tk cfg r0 rest ks).2.2 =
          some (_build_node tk cfg (listsFor key (r0 :: rest)))) := by
  intro ks
  induction ks with
  | nil =>
    intro key tag h
    simp [buildEntries, List.lookup] at h
  | cons k0 ks ih =>
    intro key tag h
    simp only [buildEntries] at h ⊢
    by_cases hkey : key == k0
    · have hkey2 : key = k0 := by simpa using hkey
      subst hkey2
      by_cases h1 : isMixedAt (r0 :: rest) key
      · rw [if_pos h1] at h ⊢
        simp only [List.lookup, beq_self_eq_true] at h
        simp at h
        subst h
        exact ⟨fun hc => by simp at hc, fun hc => by simp at hc⟩
      · rw [if_neg h1] at h ⊢
        by_cases h2 : hasObjAt (r0 :: rest) key && !listHasDictsAt (r0 :: rest) key
            && !hasStringAt (r0 :: rest) key
        · rw [if_pos h2] at h ⊢
          simp only [List.lookup, beq_self_eq_true] at h ⊢
          simp at h
          subst h
          refine ⟨fun _ => ?_, fun hc => by simp at hc⟩
          simp [List.lookup]
        · rw [if_neg h2] at h ⊢
          by_cases h3 : listHasDictsAt (r0 :: rest) key && !hasObjAt (r0 :: rest) key
              && !hasStringAt (r0 :: rest) key
          · rw [if_pos h3] at h ⊢
            simp only [List.lookup, beq_self_eq_true] at h ⊢
            simp at h
            subst h
            refine ⟨fun hc => by simp at hc, fun _ => ?_⟩
            simp [List.lookup]
          · rw [if_neg h3] at h ⊢
            by_cases h4 : hasStringAt (r0 :: rest) key && !hasObjAt (r0 :: rest) key
                && !listHasDictsAt (r0 :: rest) key
            · rw [if_pos h4] at h ⊢
              cases hopt : _optimize_string tk cfg key (stringsFor key (r0 :: rest)) with
              | some entries =>
                rw [hopt] at h
                simp only [List.lookup, beq_self_eq_true] at h
                simp at h
                subst h
                exact ⟨fun hc => by simp at hc, fun hc => by simp at hc⟩
              | none =>
                rw [hopt] at h
                simp only [List.lookup, beq_self_eq_true] at h
                simp at h
                subst h
                exact ⟨fun hc => by simp at hc, fun hc => by simp at hc⟩
            · rw [if_neg h4] at h ⊢
              simp only [List.lookup, beq_self_eq_true] at h
              simp at h
              subst h
              exact ⟨fun hc => by simp at hc, fun hc => by simp at hc⟩
    · have hkey2 : (key == k0) = false := by simpa using hkey
      by_cases h1 : isMixedAt (r0 :: rest) k0
      · rw [if_pos h1] at h ⊢
        simp only [List.lookup, hkey2] at h ⊢
        exact ih key tag h
      · rw [if_neg h1] at h ⊢
        by_cases h2 : hasObjAt (r0 :: rest) k0 && !listHasDictsAt (r0 :: rest) k0
            && !hasStringAt (r0 :: rest) k0
        · rw [if_pos h2] at h ⊢
          simp only [List.lookup, hkey2] at h ⊢
          exact ih key tag h
        · rw [if_neg h2] at h ⊢
          by_cases h3 : listHasDictsAt (r0 :: rest) k0 && !hasObjAt (r0 :: rest) k0
              && !hasStringAt (r0 :: rest) k0
          · rw [if_pos h3] at h ⊢
            simp only [List.lookup, hkey2] at h ⊢
            exact ih key tag h
          · rw [if_neg h3] at h ⊢
            by_cases h4 : hasStringAt (r0 :: rest) k0 && !hasObjAt (r0 :: rest) k0
                && !listHasDictsAt (r0 :: rest) k0
            · rw [if_pos h4] at h ⊢
              cases hopt : _optimize_string tk cfg k0 (stringsFor k0 (r0 :: rest)) with
              | some entries =>
                rw [hopt] at h
                simp only [List.lookup, hkey2] at h ⊢
                exact ih key tag h
              | none =>
                rw [hopt] at h
                simp only [List.lookup, hkey2] at h ⊢
                exact ih key tag h
            · rw [if_neg h4] at h ⊢
              simp only [List.lookup, hkey2] at h ⊢
              exact ih key tag h

theorem build_node_wf : ∀ n : Nat, ∀ rows : List JObj, sizeOf rows ≤ n →
    ∀ tk : String → Nat, ∀ cfg : TrainingConfig, WFNode (_build_node tk cfg rows) := by
  intro n
  induction n with
  | zero =>
    intro rows hle
    cases rows <;> simp at hle
  | succ n ihn =>
    intro rows hle tk cfg
    cases rows with
    | nil =>
      rw [_build_node]
      exact wf_empty
    | cons r0 rest =>
      rw [_build_node]
      constructor
      · -- distinct keys
        show (sSort _ (sSort _ (firstOccs [] _))).Nodup
        have hnd0 := (firstOccs_nodup ((r0 :: rest).flatMap fun r => r.map Prod.fst) []).1
        have h1 := (sSort_perm (fun a b : String => a < b) _).nodup_iff.mpr hnd0
        exact (sSort_perm _ _).nodup_iff.mpr h1
      · intro key htag
        show WFNode ((List.lookup key (buildEntries tk cfg r0 rest _).2.2).getD _)
        rcases hlk : List.lookup key (buildEntries tk cfg r0 rest
            (sSort (fun a b => a < b)
              (firstOccs [] ((r0 :: rest).flatMap fun r => r.map Prod.fst)))).1 with _ | tag
        · exfalso
          rcases htag with hc | hc <;>
            · rw [lookupT] at hc
              simp only [SchemaNode.t] at hc
              rw [hlk] at hc
              simp at hc
        · have hbe := buildEntries_lookup tk cfg r0 rest _ key tag hlk
          have htag2 : tag = .obj ∨ tag = .list := by
            rcases htag with hc | hc <;>
              · rw [lookupT] at hc
                simp only [SchemaNode.t] at hc
                rw [hlk] at hc
                simp at hc
                first | exact Or.inl hc | exact Or.inr hc
          rcases htag2 with ht | ht
          · subst ht
            rw [hbe.1 rfl]
            simp only [Option.getD_some]
            refine ihn (objsFor key (r0 :: rest)) ?_ tk cfg
            have := sizeOf_objsFor key r0 rest
            omega
          · subst ht
            rw [hbe.2 rfl]
            simp only [Option.getD_some]
            refine ihn (listsFor key (r0 :: rest)) ?_ tk cfg
            have := sizeOf_listsFor key r0 rest
            omega

/-- Dense-first ordering of a schema node with respect to the sample rows
that trained it: the key list is sorted by presence count (equivalently,
presence fraction: every node sorts with one fixed denominator)
non-increasingly, and recursively each sub-schema is dense-first ordered
with respect to the rows it was trained on (the collected dict values of
its key for `obj`, the concatenated list elements for `list`). -/
def DensityOrdered (rows : List JObj) (node : SchemaNode) : Prop :=
  (node.k.Pairwise fun a b => presenceOf rows b ≤ presenceOf rows a) ∧
  (∀ key sub, (key, sub) ∈ node.s →
    DensityOrdered (objsFor key rows) sub ∨ DensityOrdered (listsFor key rows) sub)
termination_by sizeOf node
decreasing_by
  all_goals
    rename_i hmem
    have h1 := List.sizeOf_lt_of_mem hmem
    have h2 : sizeOf sub < sizeOf (key, sub) := by simp <;> omega
    cases node
    simp [SchemaNode.s] at h1
    simp
    omega

theorem build_node_densityOrdered : ∀ n : Nat, ∀ rows : List JObj, sizeOf rows ≤ n →
    ∀ tk : String → Nat, ∀ cfg : TrainingConfig,
      DensityOrdered rows (_build_node tk cfg rows) := by
  intro n
  induction n with
  | zero =>
    intro rows hle
    cases rows <;> simp at hle
  | succ n ihn =>
    intro rows hle tk cfg
    cases rows with
    | nil =>
      rw [_build_node, DensityOrdered]
      exact ⟨by simp [SchemaNode.k], by simp [SchemaNode.s]⟩
    | cons r0 rest =>
      rw [_build_node, DensityOrdered]
      constructor
      · show (sSort (fun a b => presenceOf (r0 :: rest) a > presenceOf (r0 :: rest) b) _).Pairwise _
        exact sSort_pairwise (presenceOf (r0 :: rest)) _
      · intro key sub hmem
        rcases buildEntries_subs tk cfg r0 rest _ key sub hmem with hs | hs
        · left
          rw [hs]
          refine ihn (objsFor key (r0 :: rest)) ?_ tk cfg
          have := sizeOf_objsFor key r0 rest
          omega
        · right
          rw [hs]
          refine ihn (listsFor key (r0 :: rest)) ?_ tk cfg
          have := sizeOf_listsFor key r0 rest
          omega

/-- No node of the schema tree uses the reserved key `"_m"`: the key is
absent from the key list and, recursively, from every sub-schema. Schemas
trained on data that never uses `"_m"` as a field name satisfy this. -/
def NoMkey (node : SchemaNode) : Prop :=
  "_m" ∉ node.k ∧ ∀ key sub, (key, sub) ∈ node.s → NoMkey sub
termination_by sizeOf node
decreasing_by
  all_goals
    rename_i hmem
    have h1 := List.sizeOf_lt_of_mem hmem
    have h2 : sizeOf sub < sizeOf (key, sub) := by simp <;> omega
    cases node
    simp [SchemaNode.s] at h1
    simp
    omega

theorem NoMkey_empty : NoMkey (.mk [] [] [] []) := by
  rw [NoMkey]
  refine ⟨by simp [SchemaNode.k], ?_⟩
  intro key sub hmem
  simp [SchemaNode.s] at hmem

theorem NoMkey_lookupS {node : SchemaNode} (h : NoMkey node) (key : String) :
    NoMkey (lookupS node key) := by
  rw [lookupS]
  cases hlk : List.lookup key node.s with
  | none => simpa using NoMkey_empty
  | some sub =>
    rw [NoMkey] at h
    simpa using h.2 key sub (lookup_mem hlk)

theorem dictInsert_mem {o : JObj} {key : String} {v : JVal} {p : String × JVal}
    (h : p ∈ dictInsert o key v) : p ∈ o ∨ (p.1 = key ∧ p.2 = v) := by
  induction o with
  | nil =>
    simp [dictInsert] at h
    right
    simp [h]
  | cons q rest ih =>
    obtain ⟨a, b⟩ := q
    rw [dictInsert] at h
    by_cases hak : a = key
    · rw [if_pos hak] at h
      rcases List.mem_cons.mp h with h1 | h1
      · right
        subst h1
        exact ⟨hak, rfl⟩
      · left
        exact List.mem_cons_of_mem _ h1
    · rw [if_neg hak] at h
      rcases List.mem_cons.mp h with h1 | h1
      · left
        simp [h1]
      · rcases ih h1 with h2 | h2
        · left
          exact List.mem_cons_of_mem _ h2
        · right
          exact h2

/-- `_unpack` on a non-list row: strict mode rejects it, lax mode skips it. -/
theorem unpackRows_cons_notArr (r : JVal) (rest : List JVal) (node : SchemaNode)
    (strict : Bool) (hna : ∀ elems, r ≠ JVal.arr elems) :
    unpackRows (r :: rest) node strict =
      if strict then .error "Row must be a list" else unpackRows rest node strict := by
  rw [unpackRows]
  intro elems hcon
  exact absurd hcon (hna elems)

/-- Fuel-indexed invariant of `_unpack`: assuming no schema node uses the
reserved key `"_m"`, every object built by the unpacker binds only schema
keys and never binds a key to the missing sentinel. -/
theorem unpack_safe_fuel : ∀ n : Nat,
    (∀ (node : SchemaNode) (ks : List String) (cells : List JVal) (strict : Bool)
      (acc : JObj), sizeOf cells ≤ n → NoMkey node → (∀ k ∈ ks, k ∈ node.k) →
      (∀ p ∈ acc, p.1 ∈ node.k ∧ p.2 ≠ sentinelJ) →
      ∀ o, unpackCells node ks cells strict acc = .ok o →
        ∀ p ∈ o, p.1 ∈ node.k ∧ p.2 ≠ sentinelJ) ∧
    (∀ (node : SchemaNode) (key : String) (v : JVal) (strict : Bool),
      sizeOf v ≤ n → NoMkey node →
      ∀ k2 w, unpackCellStep node key v strict = .ok (some (k2, w)) →
        k2 = key ∧ w ≠ sentinelJ) ∧
    (∀ (rows : List JVal) (node : SchemaNode) (strict : Bool),
      sizeOf rows ≤ n → NoMkey node →
      ∀ os, unpackRows rows node strict = .ok os →
        ∀ o ∈ os, ∀ p ∈ o, p.1 ∈ node.k ∧ p.2 ≠ sentinelJ) := by
  intro n
  induction n with
  | zero =>
    refine ⟨?_, ?_, ?_⟩
    · intro node ks cells strict acc hle
      cases cells <;> simp at hle
    · intro node key v strict hle
      have := sizeOf_jval_pos v
      omega
    · intro rows node strict hle
      cases rows <;> simp at hle
  | succ n ihn =>
    obtain ⟨ihA, ihB, ihD⟩ := ihn
    refine ⟨?_, ?_, ?_⟩
    · -- unpackCells
      intro node ks cells strict acc hle hnm hks hacc o h p hp
      cases ks with
      | nil =>
        simp [unpackCells] at h
        subst h
        exact hacc p hp
      | cons key ks =>
        cases cells with
        | nil =>
          simp [unpackCells] at h
          subst h
          exact hacc p hp
        | cons v vs =>
          rw [unpackCells_cons] at h
          simp at hle
          cases hstep : unpackCellStep node key v strict with
          | error e =>
            rw [hstep] at h
            simp [Except.bind, Bind.bind] at h
          | ok r =>
            rw [hstep] at h
            cases r with
            | none =>
              simp [Except.bind, Bind.bind] at h
              exact ihA node ks vs strict acc (by omega) hnm
                (fun k hk => hks k (List.mem_cons_of_mem _ hk)) hacc o h p hp
            | some aw =>
              obtain ⟨k2, w⟩ := aw
              simp [Except.bind, Bind.bind] at h
              obtain ⟨hk2, hw⟩ := ihB node key v strict (by omega) hnm k2 w hstep
              refine ihA node ks vs strict (dictInsert acc k2 w) (by omega) hnm
                (fun k hk => hks k (List.mem_cons_of_mem _ hk)) ?_ o h p hp
              intro q hq
              rcases dictInsert_mem hq with h1 | h1
              · exact hacc q h1
              · refine ⟨?_, ?_⟩
                · rw [h1.1, hk2]
                  exact hks key (by simp)
                · rw [h1.2]
                  exact hw
    · -- unpackCellStep
      intro node key v strict hle hnm k2 w h
      simp only [unpackCellStep] at h
      by_cases hs : v = sentinelJ
      · rw [if_pos hs] at h
        simp at h
      · rw [if_neg hs] at h
        by_cases hn0 : v = JVal.null
        · rw [if_pos hn0] at h
          simp at h
          refine ⟨h.1.symm, ?_⟩
          rw [← h.2]
          simp [sentinelJ]
        · rw [if_neg hn0] at h
          split at h
          · -- obj, arr cells2
            rename_i cells2 hT
            by_cases hval : _validate_packed_row_structure (.arr cells2) (lookupS node key)
            · rw [if_pos hval] at h
              cases hres : unpackCells (lookupS node key) (lookupS node key).k cells2 strict [] with
              | error e =>
                rw [hres] at h
                simp [Except.map] at h
              | ok o1 =>
                rw [hres] at h
                simp [Except.map] at h
                refine ⟨h.1.symm, ?_⟩
                rw [← h.2]
                intro hcon
                have ho1 : o1 = [("_m", JVal.num 1)] := by
                  simpa [sentinelJ] using hcon
                have hmem : ("_m", JVal.num 1) ∈ o1 := by
                  rw [ho1]
                  simp
                have hsub := NoMkey_lookupS hnm key
                have hin := ihA (lookupS node key) (lookupS node key).k cells2 strict []
                  (by simp at hle; omega) hsub (fun k hk => hk) (by simp) o1 hres
                  ("_m", JVal.num 1) hmem
                rw [NoMkey] at hsub
                exact hsub.1 hin.1
            · rw [if_neg hval] at h
              simp at h
              exact ⟨h.1.symm, by rw [← h.2]; simp [sentinelJ]⟩
          · -- obj, non-arr
            rename_i hT hnarr
            simp at h
            exact ⟨h.1.symm, by rw [← h.2]; exact hs⟩
          · -- list, arr xs
            rename_i xs hT
            by_cases hall : xs.all JVal.isArr
            · rw [if_pos hall] at h
              cases hres : unpackRows xs (lookupS node key) strict with
              | error e =>
                rw [hres] at h
                simp [Except.map] at h
              | ok os =>
                rw [hres] at h
                simp [Except.map] at h
                exact ⟨h.1.symm, by rw [← h.2]; simp [sentinelJ]⟩
            · rw [if_neg hall] at h
              simp at h
              exact ⟨h.1.symm, by rw [← h.2]; simp [sentinelJ]⟩
          · -- list, non-arr
            rename_i hT hnarr
            simp at h
            exact ⟨h.1.symm, by rw [← h.2]; exact hs⟩
          · -- dict, num m
            rename_i m hT
            by_cases hneg : m < 0
            · rw [if_pos hneg] at h
              cases hinv : invMapFind (lookupD node key) m with
              | some s =>
                rw [hinv] at h
                simp at h
                exact ⟨h.1.symm, by rw [← h.2]; simp [sentinelJ]⟩
              | none =>
                rw [hinv] at h
                cases strict with
                | true =>
                  simp at h
                | false =>
                  simp at h
                  exact ⟨h.1.symm, by rw [← h.2]; simp [sentinelJ]⟩
            · rw [if_neg hneg] at h
              simp at h
              exact ⟨h.1.symm, by rw [← h.2]; simp [sentinelJ]⟩
          · -- dict, non-num
            rename_i hT hnnum
            simp at h
            exact ⟨h.1.symm, by rw [← h.2]; exact hs⟩
          · -- scalar / str fallthrough
            simp at h
            exact ⟨h.1.symm, by rw [← h.2]; exact hs⟩
    · -- unpackRows
      intro rows node strict hle hnm os h o ho p hp
      cases rows with
      | nil =>
        simp [unpackRows] at h
        subst h
        simp at ho
      | cons r rest =>
        simp at hle
        cases r with
        | arr cells =>
          rw [unpackRows] at h
          cases hres : unpackCells node node.k cells strict [] with
          | error e =>
            rw [hres] at h
            simp [Except.bind, Bind.bind] at h
          | ok o1 =>
            rw [hres] at h
            cases hres2 : unpackRows rest node strict with
            | error e =>
              rw [hres2] at h
              simp [Except.bind, Bind.bind] at h
            | ok os1 =>
              rw [hres2] at h
              simp [Except.bind, Bind.bind] at h
              subst h
              rcases List.mem_cons.mp ho with h1 | h1
              · subst h1
                have hsz : sizeOf cells ≤ n := by
                  simp at hle
                  omega
                exact ihA node node.k cells strict [] hsz hnm (fun k hk => hk)
                  (by simp) o hres p hp
              · exact ihD rest node strict (by omega) hnm os1 hres2 o h1 p hp
        | null =>
          rw [unpackRows_cons_notArr _ _ _ _ (fun elems hcon => JVal.noConfusion hcon)] at h
          cases strict with
          | true =>
            simp at h
          | false =>
            simp at h
            exact ihD rest node false (by omega) hnm os h o ho p hp
        | bool b =>
          rw [unpackRows_cons_notArr _ _ _ _ (fun elems hcon => JVal.noConfusion hcon)] at h
          cases strict with
          | true =>
            simp at h
          | false =>
            simp at h
            exact ihD rest node false (by omega) hnm os h o ho p hp
        | num m =>
          rw [unpackRows_cons_notArr _ _ _ _ (fun elems hcon => JVal.noConfusion hcon)] at h
          cases strict with
          | true =>
            simp at h
          | false =>
            simp at h
            exact ihD rest node false (by omega) hnm os h o ho p hp
        | str s =>
          rw [unpackRows_cons_notArr _ _ _ _ (fun elems hcon => JVal.noConfusion hcon)] at h
          cases strict with
          | true =>
            simp at h
          | false =>
            simp at h
            exact ihD rest node false (by omega) hnm os h o ho p hp
        | obj fields =>
          rw [unpackRows_cons_notArr _ _ _ _ (fun elems hcon => JVal.noConfusion hcon)] at h
          cases strict with
          | true =>
            simp at h
          | false =>
            simp at h
            exact ihD rest node false (by omega) hnm os h o ho p hp

/-! ## The claims -/

/-- A sample tokenizer for the concrete instances below (any
`String → Nat` stands for `AGON._tk_text`). -/
def tkLen : String → Nat := fun s => s.length

/-- C9: for every trained config and both strict settings, decoding a
payload whose JSON parse is an array returns that array unchanged,
regardless of the config's schema and even when the array's elements are
not objects (the raw-JSON fallback ignores the schema entirely). -/
theorem claim_C9 (xs : List JVal) (config : Config) (strict : Bool) :
    decode (.arr xs) config strict = .ok xs := rfl

/-- C8: training is deterministic — two calls of `train` at the same
arguments give the same config — and the anchor hash `v` is the first 16
hex characters of the SHA-256 of the canonical (recursively key-sorted)
JSON serialization of the trained schema. -/
theorem claim_C8 (tk : String → Nat) (data : List JObj) (context_id : String)
    (min_gain : ℚ) (amortize max_dict_per_field : Int) (enum_like_only : Bool)
    (max_enum_len : Int) :
    train tk data context_id min_gain amortize max_dict_per_field enum_like_only
        max_enum_len =
      train tk data context_id min_gain amortize max_dict_per_field enum_like_only
        max_enum_len ∧
    (train tk data context_id min_gain amortize max_dict_per_field enum_like_only
        max_enum_len).v =
      (sha256hex (utf8Bytes (canonicalDump (schemaToJVal
        (train tk data context_id min_gain amortize max_dict_per_field enum_like_only
          max_enum_len).schema)))).take 16 := by
  refine ⟨rfl, ?_⟩
  cases data with
  | nil =>
    have h : train tk [] context_id min_gain amortize max_dict_per_field enum_like_only
        max_enum_len = _anchor context_id (.mk [] [] [] []) := rfl
    rw [h, _anchor]
  | cons r rest =>
    have h : train tk (r :: rest) context_id min_gain amortize max_dict_per_field
        enum_like_only max_enum_len =
      _anchor context_id (_build_node tk
        ⟨min_gain, max 1 amortize, max_dict_per_field, enum_like_only, max_enum_len⟩
        (r :: rest)) := rfl
    rw [h, _anchor]

/-- C3: with `force_agon = false` the token count of the string `encode`
returns is at most the token count of the raw JSON serialization of the
input: the encoder emits the packet only when it tokenizes strictly
smaller, so it is never worse than JSON. -/
theorem claim_C3 (tk : String → Nat) (data : List JObj) (config : Config) :
    tk (encode tk data config false) ≤
      tk (jsonDump (JVal.arr (data.map JVal.obj))) := by
  rw [encode, encodeVal]
  by_cases hc : _check_coverage data config.schema
  · simp only [hc, Bool.not_true, Bool.not_false, Bool.true_and, if_false,
      Bool.false_eq_true, if_neg, Bool.and_false]
    by_cases ht : tk (jsonDump (packetVal data config)) <
        tk (jsonDump (JVal.arr (data.map JVal.obj)))
    · rw [if_pos ht]
      omega
    · rw [if_neg ht]
  · have hc2 : _check_coverage data config.schema = false := by
      simpa using hc
    simp [hc2]

/-- C7: the key list of every node of a trained schema is ordered by
presence non-increasingly (the count of samples containing the key, which
orders like the presence fraction since each node compares its keys over
one fixed sample list), at the root and recursively in every
sub-schema. -/
theorem claim_C7 (tk : String → Nat) (data : List JObj) (context_id : String)
    (min_gain : ℚ) (amortize max_dict_per_field : Int) (enum_like_only : Bool)
    (max_enum_len : Int) :
    DensityOrdered data
      (train tk data context_id min_gain amortize max_dict_per_field enum_like_only
        max_enum_len).schema := by
  cases data with
  | nil =>
    show DensityOrdered [] (SchemaNode.mk [] [] [] [])
    rw [DensityOrdered]
    exact ⟨by simp [SchemaNode.k], fun key sub hmem => by simp [SchemaNode.s] at hmem⟩
  | cons r rest =>
    show DensityOrdered (r :: rest) (_build_node tk _ (r :: rest))
    exact build_node_densityOrdered (sizeOf (r :: rest)) (r :: rest) le_rfl tk _

/-- C2: when the schema does not cover the input (some object has a key,
at some nesting level, outside the corresponding schema node's key set),
`encode` with `force_agon = false` returns the raw JSON serialization of
the input, not an AGON packet. -/
theorem claim_C2 (tk : String → Nat) (data : List JObj) (config : Config)
    (h : _check_coverage data config.schema = false) :
    encode tk data config false = jsonDump (JVal.arr (data.map JVal.obj)) := by
  rw [encode, encodeVal]
  simp [h]

/-- C2 at a concrete input: the key `"a"` is not in the (empty) schema key
set, so the payload is the raw JSON text. -/
theorem claim_C2_witness :
    encode tkLen [[("a", JVal.num 1)]] ⟨"c2", "v2", .mk [] [] [] []⟩ false =
      jsonDump (JVal.arr ([[("a", JVal.num 1)]].map JVal.obj)) :=
  claim_C2 tkLen [[("a", JVal.num 1)]] ⟨"c2", "v2", .mk [] [] [] []⟩
    (by simp [_check_coverage, coverRow, SchemaNode.k])

/-- C4: in strict mode, a packet object carrying `"_f": "a"` whose `c`
entry differs from the config's cid errors with `CID Mismatch`; one whose
`c` matches but whose `v` entry differs from the config's anchor hash
errors with `Version Mismatch`; and one whose `c` and `v` both match is
accepted past both checks: decoding proceeds to the payload `d`. -/
theorem claim_C4 (config : Config) (kvs : List (String × JVal))
    (hf : List.lookup "_f" kvs = some (.str "a")) :
    (List.lookup "c" kvs ≠ some (.str config.cid) →
      decode (.obj kvs) config true = .error "CID Mismatch") ∧
    (List.lookup "c" kvs = some (.str config.cid) →
      List.lookup "v" kvs ≠ some (.str config.v) →
      decode (.obj kvs) config true = .error "Version Mismatch") ∧
    (List.lookup "c" kvs = some (.str config.cid) →
      List.lookup "v" kvs = some (.str config.v) →
      decode (.obj kvs) config true =
        match List.lookup "d" kvs with
        | some (.arr d_rows) =>
          (unpackRows d_rows config.schema true).map fun out => out.map JVal.obj
        | _ => .error "Payload d must be a list") := by
  refine ⟨?_, ?_, ?_⟩
  · intro hc
    rw [decode]
    simp [hf, hc]
  · intro hc hv
    rw [decode]
    simp [hf, hc, hv]
  · intro hc hv
    rw [decode]
    simp [hf, hc, hv]

/-- C4 at a concrete input: a packet whose `c` and `v` match the config is
accepted past the cid and version checks (here with an empty payload). -/
theorem claim_C4_witness :
    (List.lookup "c" [("_f", JVal.str "a"), ("c", JVal.str "c4"), ("v", JVal.str "v4"),
        ("d", JVal.arr [])] ≠ some (.str (Config.mk "c4" "v4" (.mk [] [] [] [])).cid) →
      decode (.obj [("_f", JVal.str "a"), ("c", JVal.str "c4"), ("v", JVal.str "v4"),
        ("d", JVal.arr [])]) ⟨"c4", "v4", .mk [] [] [] []⟩ true = .error "CID Mismatch") ∧
    (List.lookup "c" [("_f", JVal.str "a"), ("c", JVal.str "c4"), ("v", JVal.str "v4"),
        ("d", JVal.arr [])] = some (.str (Config.mk "c4" "v4" (.mk [] [] [] [])).cid) →
      List.lookup "v" [("_f", JVal.str "a"), ("c", JVal.str "c4"), ("v", JVal.str "v4"),
        ("d", JVal.arr [])] ≠ some (.str (Config.mk "c4" "v4" (.mk [] [] [] [])).v) →
      decode (.obj [("_f", JVal.str "a"), ("c", JVal.str "c4"), ("v", JVal.str "v4"),
        ("d", JVal.arr [])]) ⟨"c4", "v4", .mk [] [] [] []⟩ true =
          .error "Version Mismatch") ∧
    (List.lookup "c" [("_f", JVal.str "a"), ("c", JVal.str "c4"), ("v", JVal.str "v4"),
        ("d", JVal.arr [])] = some (.str (Config.mk "c4" "v4" (.mk [] [] [] [])).cid) →
      List.lookup "v" [("_f", JVal.str "a"), ("c", JVal.str "c4"), ("v", JVal.str "v4"),
        ("d", JVal.arr [])] = some (.str (Config.mk "c4" "v4" (.mk [] [] [] [])).v) →
      decode (.obj [("_f", JVal.str "a"), ("c", JVal.str "c4"), ("v", JVal.str "v4"),
        ("d", JVal.arr [])]) ⟨"c4", "v4", .mk [] [] [] []⟩ true =
        match List.lookup "d" [("_f", JVal.str "a"), ("c", JVal.str "c4"),
            ("v", JVal.str "v4"), ("d", JVal.arr [])] with
        | some (.arr d_rows) =>
          (unpackRows d_rows (Config.mk "c4" "v4" (.mk [] [] [] [])).schema true).map
            fun out => out.map JVal.obj
        | _ => .error "Payload d must be a list") :=
  claim_C4 ⟨"c4", "v4", .mk [] [] [] []⟩
    [("_f", JVal.str "a"), ("c", JVal.str "c4"), ("v", JVal.str "v4"), ("d", JVal.arr [])]
    (by simp [List.lookup])

/-- C5: a packed row places, at each schema-key position in order, the
cell `packCell`: the missing sentinel when the key is absent, `null` for
an explicit null, and a negative pointer `-(i+1)` for a dict-typed string
found in the field dictionary at index `i`; only trailing sentinels are
truncated (the untruncated row is the truncated row plus a sentinel-only
tail), so no emitted row ends with the sentinel and every emitted row is
at most as long as the schema key list. -/
theorem claim_C5 (node : SchemaNode) (data : List JObj) :
    _pack data node =
      data.map (fun r => rstripSentinel (node.k.map fun key => packCell node r key)) ∧
    (∀ r : JObj, ∀ key : String, List.lookup key r = none →
      packCell node r key = sentinelJ) ∧
    (∀ r : JObj, ∀ key : String, List.lookup key r = some JVal.null →
      packCell node r key = JVal.null) ∧
    (∀ r : JObj, ∀ key : String, ∀ s : String, ∀ i : Nat,
      List.lookup key r = some (JVal.str s) → lookupT node key = .dict →
      valMapFind (lookupD node key) s = some i →
      packCell node r key = JVal.num (-(i + 1 : Int))) ∧
    (∀ r ∈ data, ∃ extra : List JVal,
      (node.k.map fun key => packCell node r key) =
        rstripSentinel (node.k.map fun key => packCell node r key) ++ extra ∧
      ∀ c ∈ extra, c = sentinelJ) ∧
    (∀ row ∈ _pack data node, row.length ≤ node.k.length) ∧
    (∀ row ∈ _pack data node, ∀ c : JVal, row.getLast? = some c → c ≠ sentinelJ) := by
  refine ⟨?_, ?_, ?_, ?_, ?_, ?_, ?_⟩
  · simp [_pack, packRowCore]
  · intro r key h
    rw [packCell, h]
  · intro r key h
    rw [packCell, h]
    simp
  · intro r key s i h ht hv
    have h1 : packCell node r key = packVal node key (JVal.str s) := by
      rw [packCell, h]
      simp [sentinelJ]
    rw [h1, packVal, ht, hv]
  · intro r _
    exact rstrip_spec (node.k.map fun key => packCell node r key)
  · intro row hrow
    rw [_pack] at hrow
    obtain ⟨r, _, rfl⟩ := List.mem_map.mp hrow
    have h1 := rstrip_length (packRowCore node r)
    have h2 : (packRowCore node r).length = node.k.length := by
      rw [packRowCore]
      simp
    omega
  · intro row hrow c hc
    rw [_pack] at hrow
    obtain ⟨r, _, rfl⟩ := List.mem_map.mp hrow
    exact rstrip_getLast hc

/-- C6 (amended): in strict mode the decoder rejects a non-list row with
`Row must be a list`, but it does not reject an over-long list row: the
index loop runs over `min(len(row), len(keys))`, so a list row longer
than the schema key list decodes exactly as its first `len(keys)` cells
do (the excess cells are silently dropped, not an error). -/
theorem claim_C6 (node : SchemaNode) (r : JVal) (rest : List JVal) :
    ((∀ elems : List JVal, r ≠ JVal.arr elems) →
      unpackRows (r :: rest) node true = .error "Row must be a list") ∧
    (∀ cells : List JVal,
      unpackRows (JVal.arr cells :: rest) node true =
        unpackRows (JVal.arr (cells.take node.k.length) :: rest) node true) := by
  constructor
  · intro hna
    rw [unpackRows_cons_notArr r rest node true hna]
    simp
  · intro cells
    conv_lhs => rw [unpackRows]
    conv_rhs => rw [unpackRows]
    rw [unpackCells_take node true node.k cells []]

/-- A one-key scalar schema node, for the concrete instances below. -/
def node1 : SchemaNode := .mk ["a"] [("a", TType.scalar)] [] []

/-- C6, the original claim refuted: a two-cell row against a one-key
schema is not rejected in strict mode — it decodes successfully, the
excess cell silently dropped. -/
theorem claim_C6_cex :
    unpackRows [JVal.arr [JVal.num 1, JVal.num 2]] node1 true =
      .ok [[("a", JVal.num 1)]] ∧
    ([JVal.num 1, JVal.num 2] : List JVal).length = 2 ∧
    node1.k.length = 1 := by
  refine ⟨?_, rfl, rfl⟩
  rw [unpackRows]
  rw [show unpackRows [] node1 true = .ok [] by rw [unpackRows]]
  simp [unpackCells, lookupT, List.lookup, sentinelJ, dictInsert, node1, SchemaNode.k,
    Except.bind, Bind.bind]

/-- C10 (amended): provided no schema node uses the reserved key `"_m"`
(true of every schema trained on data that never uses `"_m"` as a field
name), each object produced by unpacking has keys drawn only from the
schema node's key list and binds no key to the missing sentinel. Without
that proviso the sentinel-freedom half fails, see the counterexample. -/
theorem claim_C10 (node : SchemaNode) (rows : List JVal) (strict : Bool)
    (os : List JObj) (hnm : NoMkey node)
    (h : unpackRows rows node strict = .ok os) :
    ∀ o ∈ os, ∀ p ∈ o, p.1 ∈ node.k ∧ p.2 ≠ sentinelJ :=
  (unpack_safe_fuel (sizeOf rows)).2.2 rows node strict le_rfl hnm os h

/-- C10 at a concrete input: the one binding of the decoded row uses the
schema key and is not the sentinel. -/
theorem claim_C10_witness :
    ("a", JVal.num 5).1 ∈ node1.k ∧ ("a", JVal.num 5).2 ≠ sentinelJ :=
  claim_C10 node1 [JVal.arr [JVal.num 5]] true [[("a", JVal.num 5)]]
    (by
      rw [NoMkey]
      exact ⟨by simp [node1, SchemaNode.k], fun key sub hmem => by
        simp [node1, SchemaNode.s] at hmem⟩)
    (by
      rw [unpackRows]
      rw [show unpackRows [] node1 true = .ok [] by rw [unpackRows]]
      simp [unpackCells, lookupT, List.lookup, sentinelJ, dictInsert, node1,
        SchemaNode.k, Except.bind, Bind.bind])
    [("a", JVal.num 5)] (by simp) ("a", JVal.num 5) (by simp)

/-- A schema whose sub-schema for `"a"` uses the reserved key `"_m"`. -/
def node2 : SchemaNode :=
  .mk ["a"] [("a", TType.obj)] [] [("a", .mk ["_m"] [("_m", TType.scalar)] [] [])]

/-- C10, the original claim refuted: with a sub-schema whose key list
contains the reserved key `"_m"`, unpacking the packed sub-row `[1]`
rebuilds the object `{"_m": 1}` — which is the missing sentinel itself —
and binds it to the key `"a"`: a key of an output object is bound to the
missing sentinel. -/
theorem claim_C10_cex :
    unpackRows [JVal.arr [JVal.arr [JVal.num 1]]] node2 true =
      .ok [[("a", JVal.obj [("_m", JVal.num 1)])]] ∧
    JVal.obj [("_m", JVal.num 1)] = sentinelJ := by
  refine ⟨?_, rfl⟩
  rw [unpackRows]
  rw [show unpackRows [] node2 true = .ok [] by rw [unpackRows]]
  simp [unpackCells, lookupT, lookupS, List.lookup, sentinelJ, dictInsert, node2,
    SchemaNode.k, SchemaNode.t, SchemaNode.s, _validate_packed_row_structure,
    validCells, cellOK, Except.bind, Bind.bind]

/-- C1 (amended): decoding the forced encoding round-trips (up to Python
`==`, which ignores dict insertion order) for every config whose schema is
well-formed in the way `train` guarantees, and every input list that
CONFORMS to the schema: every key of every object, recursively, is a
schema key bound to a value of the shape its type tag packs losslessly.
Key coverage alone — the property `encode` checks — is not enough, see
the counterexample. -/
theorem claim_C1 (tk : String → Nat) (data : List JObj) (config : Config)
    (strict : Bool) (hwf : WFNode config.schema)
    (hconf : confRows config.schema data = true) :
    ∃ out : List JVal,
      decode (encodeVal tk data config true) config strict = .ok out ∧
      pyEqList out (data.map JVal.obj) = true := by
  obtain ⟨os, h1, h2⟩ := pack_unpack_roundtrip config.schema data strict hwf hconf
  refine ⟨os.map JVal.obj, ?_, h2⟩
  have hforce : encodeVal tk data config true = packetVal data config := by
    rw [encodeVal]
    simp
  rw [hforce, packetVal, decode]
  simp [List.lookup, h1, Except.map]

/-- C1 at a concrete input: the empty data list conforms to the empty
schema and round-trips. -/
theorem claim_C1_witness :
    ∃ out : List JVal,
      decode (encodeVal tkLen [] ⟨"c1", "v1", .mk [] [] [] []⟩ true)
        ⟨"c1", "v1", .mk [] [] [] []⟩ true = .ok out ∧
      pyEqList out (([] : List JObj).map JVal.obj) = true :=
  claim_C1 tkLen [] ⟨"c1", "v1", .mk [] [] [] []⟩ true wf_empty rfl

/-- C1, the original claim refuted: the config trained on
`[{"a": {"b": 1}}]` covers the input `[{"a": []}]` (coverage checks keys
only), yet the forced round-trip turns the empty list at `"a"` into an
empty dict: decode of encode is `[{"a": {}}]`, not Python-equal to the
input. -/
theorem claim_C1_cex :
    _check_coverage [[("a", JVal.arr [])]]
        (trainD tkLen [[("a", JVal.obj [("b", JVal.num 1)])]] "t").schema = true ∧
    decode (encodeVal tkLen [[("a", JVal.arr [])]]
        (trainD tkLen [[("a", JVal.obj [("b", JVal.num 1)])]] "t") true)
      (trainD tkLen [[("a", JVal.obj [("b", JVal.num 1)])]] "t") true =
      .ok [JVal.obj [("a", JVal.obj [])]] ∧
    pyEqList [JVal.obj [("a", JVal.obj [])]]
      ([[("a", JVal.arr [])]].map JVal.obj) = false := by
  have hS : (trainD tkLen [[("a", JVal.obj [("b", JVal.num 1)])]] "t").schema =
      SchemaNode.mk ["a"] [("a", TType.obj)] []
        [("a", SchemaNode.mk ["b"] [("b", TType.scalar)] [] [])] := by
    have h0 : trainD tkLen [[("a", JVal.obj [("b", JVal.num 1)])]] "t" =
        _anchor "t" (_build_node tkLen ⟨3, max 1 50, 100, true, 64⟩
          [[("a", JVal.obj [("b", JVal.num 1)])]]) := rfl
    rw [h0, _anchor]
    simp [_build_node, buildEntries, firstOccs, sSort, sInsert, presenceOf, hasKey,
      List.lookup, isMixedAt, hasObjAt, listHasDictsAt, hasStringAt, objsFor]
  refine ⟨?_, ?_, ?_⟩
  · rw [hS]
    simp [_check_coverage, coverRow, coverVals, coverVal, coverElems, List.lookup,
      SchemaNode.k, lookupT, lookupS, sentinelJ]
  · have hforce : encodeVal tkLen [[("a", JVal.arr [])]]
        (trainD tkLen [[("a", JVal.obj [("b", JVal.num 1)])]] "t") true =
        packetVal [[("a", JVal.arr [])]]
          (trainD tkLen [[("a", JVal.obj [("b", JVal.num 1)])]] "t") := by
      rw [encodeVal]
      simp
    rw [hforce, packetVal, decode]
    have hpack : _pack [[("a", JVal.arr [])]]
        (trainD tkLen [[("a", JVal.obj [("b", JVal.num 1)])]] "t").schema =
        [[JVal.arr []]] := by
      rw [hS]
      simp [_pack, packRowCore, packCell, packVal, rstripSentinel, sentinelJ,
        lookupT, lookupS, List.lookup, SchemaNode.k, SchemaNode.t, SchemaNode.s]
    rw [hpack]
    have hunpack : unpackRows [JVal.arr [JVal.arr []]]
        (trainD tkLen [[("a", JVal.obj [("b", JVal.num 1)])]] "t").schema true =
        .ok [[("a", JVal.obj [])]] := by
      rw [hS, unpackRows]
      rw [show unpackRows ([] : List JVal)
          (SchemaNode.mk ["a"] [("a", TType.obj)] []
            [("a", SchemaNode.mk ["b"] [("b", TType.scalar)] [] [])]) true = .ok []
        by rw [unpackRows]]
      simp [unpackCells, lookupT, lookupS, List.lookup, sentinelJ, dictInsert,
        SchemaNode.k, SchemaNode.t, SchemaNode.s, _validate_packed_row_structure,
        validCells, cellOK, Except.bind, Bind.bind]
    simp [List.lookup, hunpack, Except.map]
  · simp [pyEqList, pyEq, pyEqMembers]
